import Mathlib

/-!
# libzim: file header, clusters, decompression stream, title listing

A shallow embedding of `src/fileheader.cpp` (the 80-byte archive header:
`Fileheader::write`, `Fileheader::read`, `Fileheader::sanity_check`) and of
`src/writer/titleListingHandler.cpp` (`ListingProvider`), and a model from the
specification of the cluster writer and reader that `test/cluster.cpp` exercises
and of the `DecodedDataStream` that `test/decodeddatastream.cpp` exercises, with
the properties of them that the specification states.

Machine integers are natural numbers; a value stored into a `w`-byte slot is
reduced modulo `256 ^ w` by `toLittleEndian`.  A byte is a `Fin 256`.  A call
that can throw returns the state it leaves behind together with the exception
(`Fileheader.read`), or `none` or an `Except` error where no state is left to
look at.  Memory that the code does not initialise (the local buffer of
`Fileheader::write`, the member buffer of `ListingProvider`) is an argument.

The file has the definitions first (header, clusters, decompression stream,
title listing, sample data), then the lemmas and the theorems on the header,
on the cluster, on the decompression stream, and on the title listing.
-/

namespace zim

/-- One `char` of a buffer or stream, seen as an unsigned 8-bit value. -/
abbrev Byte := Fin 256

/-! ## endian_tools.h -/

/-- Modelled from the spec: `endian_tools.h` is not among the sources; the spec
says "all multi-byte integers little-endian".  `toLittleEndian d n` is the
`n`-byte little-endian image of `d` (byte `i` is `d >> (8*i)` cut to 8 bits), as
the call `toLittleEndian(value, dst)` stores it for a value of an `n`-byte
integer type. -/
def toLittleEndian (d : Nat) : Nat → List Byte
  | 0 => []
  | n + 1 => ⟨d % 256, Nat.mod_lt d (by decide)⟩ :: toLittleEndian (d / 256) n

/-- Modelled from the spec: `endian_tools.h` is not among the sources.
`fromLittleEndian bs` is the unsigned integer whose little-endian image is
`bs`. -/
def fromLittleEndian : List Byte → Nat
  | [] => 0
  | b :: bs => b.val + 256 * fromLittleEndian bs

/-- The effect of storing `src` into the buffer `dst` at offset `off`
(`toLittleEndian(v, dst + off)`, `std::copy(first, last, dst + off)`): the bytes
`off .. off + src.length` are replaced, all the others are kept. -/
def copyTo (dst : List Byte) (off : Nat) (src : List Byte) : List Byte :=
  dst.take off ++ src ++ dst.drop (off + src.length)

/-! ## idatastream.h -/

/-- Modelled from the spec: `idatastream.h` is not among the sources.  A
forward-only source of bytes; the value is what is still unread. -/
abbrev IDataStream := List Byte

/-- Modelled from the spec: `IDataStream::readBlob(size)` hands out the next
`size` bytes and advances the stream; "readBlob past the end of available
decoded data signals a TruncatedStreamError" (here `none`). -/
def IDataStream.readBlob (ds : IDataStream) (size : Nat) : Option (List Byte × IDataStream) :=
  if size ≤ ds.length then some (ds.take size, ds.drop size) else none

/-- Modelled from the spec: `IDataStream::read<T>()` for an unsigned integer type
`T` of `size` bytes: the next `size` bytes, decoded little-endian. -/
def IDataStream.read (ds : IDataStream) (size : Nat) : Option (Nat × IDataStream) :=
  match IDataStream.readBlob ds size with
  | some (b, ds1) => some (fromLittleEndian b, ds1)
  | none => none

/-! ## Fileheader -/

/-- The 16 bytes of `Uuid::data`. -/
structure Uuid where
  data : List Byte
  size_eq : data.length = 16
deriving DecidableEq

/-- `std::copy(first, last, uuid.data)`: the bytes of `src` overwrite the
beginning of the 16-byte array. -/
def Uuid.copyFrom (uuid : Uuid) (src : List Byte) : Uuid :=
  ⟨(src ++ uuid.data.drop src.length).take 16, by
    have h := uuid.size_eq
    simp only [List.length_take, List.length_append, List.length_drop, h]
    omega⟩

/-- The default constructed `Uuid uuid;` (all bytes zero). -/
def Uuid.zero : Uuid := ⟨List.replicate 16 0, by simp⟩

/-- The data members of `zim::Fileheader`.  The widths of the fields are those of
the layout table of the spec: `majorVersion`, `minorVersion` 16 bits;
`articleCount`, `clusterCount`, `mainPage`, `layoutPage` 32 bits; the four
positions and `checksumPos` 64 bits. -/
structure Fileheader where
  majorVersion : Nat
  minorVersion : Nat
  uuid : Uuid
  articleCount : Nat
  clusterCount : Nat
  urlPtrPos : Nat
  titleIdxPos : Nat
  clusterPtrPos : Nat
  mimeListPos : Nat
  mainPage : Nat
  layoutPage : Nat
  checksumPos : Nat
deriving DecidableEq

/-- Every field holds a value of its C++ type. -/
def Fileheader.InRange (h : Fileheader) : Prop :=
  h.majorVersion < 2 ^ 16 ∧ h.minorVersion < 2 ^ 16 ∧
  h.articleCount < 2 ^ 32 ∧ h.clusterCount < 2 ^ 32 ∧
  h.urlPtrPos < 2 ^ 64 ∧ h.titleIdxPos < 2 ^ 64 ∧ h.clusterPtrPos < 2 ^ 64 ∧
  h.mimeListPos < 2 ^ 64 ∧ h.mainPage < 2 ^ 32 ∧ h.layoutPage < 2 ^ 32 ∧
  h.checksumPos < 2 ^ 64

instance (h : Fileheader) : Decidable h.InRange := by
  unfold Fileheader.InRange; infer_instance

/-- `Fileheader::zimMagic`. -/
def Fileheader.zimMagic : Nat := 0x044d495a
/-- `Fileheader::zimClassicMajorVersion`. -/
def Fileheader.zimClassicMajorVersion : Nat := 5
/-- `Fileheader::zimExtendedMajorVersion`. -/
def Fileheader.zimExtendedMajorVersion : Nat := 6
/-- `Fileheader::zimMinorVersion`. -/
def Fileheader.zimMinorVersion : Nat := 0
/-- `Fileheader::size`; "This is also mimeListPos (so an offset)". -/
def Fileheader.size : Nat := 80

/-- The `ZimFileFormatError`s thrown in `fileheader.cpp`, one constructor per
`throw` statement. -/
inductive ZimFileFormatError where
  /-- "Invalid magic number" -/
  | invalidMagicNumber
  /-- "Invalid version" -/
  | invalidVersion
  /-- "No article <=> No cluster" -/
  | noArticleNoCluster
  /-- "mimelistPos must be 80." -/
  | mimelistPosMustBe80
  /-- "urlPtrPos must be > mimelistPos." -/
  | urlPtrPos
  /-- "titleIdxPos must be > mimelistPos." -/
  | titleIdxPos
  /-- "clusterPtrPos must be > mimelistPos." -/
  | clusterPtrPos
  /-- "Cluster count cannot be higher than article count." -/
  | clusterCount
  /-- "checksumPos must be > mimeListPos." -/
  | checksumPos
deriving DecidableEq, Repr

/-- The message carried by the exception. -/
def ZimFileFormatError.what : ZimFileFormatError → String
  | .invalidMagicNumber => "Invalid magic number"
  | .invalidVersion => "Invalid version"
  | .noArticleNoCluster => "No article <=> No cluster"
  | .mimelistPosMustBe80 => "mimelistPos must be 80."
  | .urlPtrPos => "urlPtrPos must be > mimelistPos."
  | .titleIdxPos => "titleIdxPos must be > mimelistPos."
  | .clusterPtrPos => "clusterPtrPos must be > mimelistPos."
  | .clusterCount => "Cluster count cannot be higher than article count."
  | .checksumPos => "checksumPos must be > mimeListPos."

/-- What leaves `Fileheader::read` as an exception: a `ZimFileFormatError` of
`fileheader.cpp`, or the failure of the stream that ran out of bytes. -/
inductive ReadError where
  | format (e : ZimFileFormatError)
  | truncatedStream
deriving DecidableEq, Repr

/-- `Fileheader::write`.  `header` is the local `char header[Fileheader::size]`
as it is when the function is entered (not initialised); the result is the bytes
handed to `_write(out_fd, header, Fileheader::size)`. -/
def Fileheader.write (self : Fileheader) (header : List Byte) : List Byte :=
  let header := copyTo header 0 (toLittleEndian Fileheader.zimMagic 4)
  let header := copyTo header 4 (toLittleEndian self.majorVersion 2)
  let header := copyTo header 6 (toLittleEndian self.minorVersion 2)
  let header := copyTo header 8 self.uuid.data
  let header := copyTo header 24 (toLittleEndian self.articleCount 4)
  let header := copyTo header 28 (toLittleEndian self.clusterCount 4)
  let header := copyTo header 32 (toLittleEndian self.urlPtrPos 8)
  let header := copyTo header 40 (toLittleEndian self.titleIdxPos 8)
  let header := copyTo header 48 (toLittleEndian self.clusterPtrPos 8)
  let header := copyTo header 56 (toLittleEndian self.mimeListPos 8)
  let header := copyTo header 64 (toLittleEndian self.mainPage 4)
  let header := copyTo header 68 (toLittleEndian self.layoutPage 4)
  let header := copyTo header 72 (toLittleEndian self.checksumPos 8)
  header.take Fileheader.size

/-- `Fileheader::sanity_check`: the first violated check throws. -/
def Fileheader.sanity_check (self : Fileheader) : Except ZimFileFormatError Unit :=
  if (!(!decide (self.articleCount ≠ 0))) != (!(!decide (self.clusterCount ≠ 0))) then
    .error .noArticleNoCluster
  else if self.mimeListPos ≠ Fileheader.size ∧ self.mimeListPos ≠ 72 then
    .error .mimelistPosMustBe80
  else if self.urlPtrPos < self.mimeListPos then
    .error .urlPtrPos
  else if self.titleIdxPos < self.mimeListPos then
    .error .titleIdxPos
  else if self.clusterPtrPos < self.mimeListPos then
    .error .clusterPtrPos
  else if self.clusterCount > self.articleCount then
    .error .clusterCount
  else if self.checksumPos ≠ 0 ∧ self.checksumPos < self.mimeListPos then
    .error .checksumPos
  else
    .ok ()

/-- The state in which a call of `Fileheader::read` leaves the program: the
object it was called on, the stream, and the exception thrown if any. -/
structure ReadResult where
  self : Fileheader
  ds : IDataStream
  thrown : Option ReadError
deriving DecidableEq

/-- `Fileheader::read`: the statements of the function in order; every setter
acts on the object at once, an exception ends the call where it is thrown. -/
def Fileheader.read (self : Fileheader) (ds : IDataStream) : ReadResult :=
  match IDataStream.read ds 4 with
  | none => ⟨self, ds, some .truncatedStream⟩
  | some (magicNumber, ds) =>
  if magicNumber ≠ Fileheader.zimMagic then
    ⟨self, ds, some (.format .invalidMagicNumber)⟩
  else
  match IDataStream.read ds 2 with
  | none => ⟨self, ds, some .truncatedStream⟩
  | some (major_version, ds) =>
  if major_version ≠ Fileheader.zimClassicMajorVersion
      ∧ major_version ≠ Fileheader.zimExtendedMajorVersion then
    ⟨self, ds, some (.format .invalidVersion)⟩
  else
  let self := { self with majorVersion := major_version }
  match IDataStream.read ds 2 with
  | none => ⟨self, ds, some .truncatedStream⟩
  | some (v, ds) =>
  let self := { self with minorVersion := v }
  match IDataStream.readBlob ds 16 with
  | none => ⟨self, ds, some .truncatedStream⟩
  | some (uuidBlob, ds) =>
  let self := { self with uuid := Uuid.copyFrom Uuid.zero uuidBlob }
  match IDataStream.read ds 4 with
  | none => ⟨self, ds, some .truncatedStream⟩
  | some (v, ds) =>
  let self := { self with articleCount := v }
  match IDataStream.read ds 4 with
  | none => ⟨self, ds, some .truncatedStream⟩
  | some (v, ds) =>
  let self := { self with clusterCount := v }
  match IDataStream.read ds 8 with
  | none => ⟨self, ds, some .truncatedStream⟩
  | some (v, ds) =>
  let self := { self with urlPtrPos := v }
  match IDataStream.read ds 8 with
  | none => ⟨self, ds, some .truncatedStream⟩
  | some (v, ds) =>
  let self := { self with titleIdxPos := v }
  match IDataStream.read ds 8 with
  | none => ⟨self, ds, some .truncatedStream⟩
  | some (v, ds) =>
  let self := { self with clusterPtrPos := v }
  match IDataStream.read ds 8 with
  | none => ⟨self, ds, some .truncatedStream⟩
  | some (v, ds) =>
  let self := { self with mimeListPos := v }
  match IDataStream.read ds 4 with
  | none => ⟨self, ds, some .truncatedStream⟩
  | some (v, ds) =>
  let self := { self with mainPage := v }
  match IDataStream.read ds 4 with
  | none => ⟨self, ds, some .truncatedStream⟩
  | some (v, ds) =>
  let self := { self with layoutPage := v }
  match IDataStream.read ds 8 with
  | none => ⟨self, ds, some .truncatedStream⟩
  | some (v, ds) =>
  let self := { self with checksumPos := v }
  match Fileheader.sanity_check self with
  | .error e => ⟨self, ds, some (.format e)⟩
  | .ok _ => ⟨self, ds, none⟩

/-- The little-endian value of the `w` bytes at offset `off` of `bs`. -/
def fieldAt (bs : List Byte) (off w : Nat) : Nat :=
  fromLittleEndian ((bs.drop off).take w)

/-- The header whose fields are decoded from the bytes of `bs` at the offsets of
the layout: what the setters of `Fileheader::read` have stored when the last of
them has run. -/
def Fileheader.ofBytes (bs : List Byte) : Fileheader where
  majorVersion := fieldAt bs 4 2
  minorVersion := fieldAt bs 6 2
  uuid := Uuid.copyFrom Uuid.zero ((bs.drop 8).take 16)
  articleCount := fieldAt bs 24 4
  clusterCount := fieldAt bs 28 4
  urlPtrPos := fieldAt bs 32 8
  titleIdxPos := fieldAt bs 40 8
  clusterPtrPos := fieldAt bs 48 8
  mimeListPos := fieldAt bs 56 8
  mainPage := fieldAt bs 64 4
  layoutPage := fieldAt bs 68 4
  checksumPos := fieldAt bs 72 8

/-! ## Clusters

`src/cluster.cpp`, `src/writer/cluster.cpp`, `src/compression.cpp` and `zim.h`
are not among the sources; `test/cluster.cpp` is.  The definitions of this
section follow sections 3, 4.3, 4.4 and 6 of the spec, and the bytes that
`test/cluster.cpp` writes and reads. -/

/-- Modelled from the spec: `zim.h` is not among the sources.  "`compression`:
one of {None, Deflate, LZMA, Zstandard}". -/
inductive CompressionType where
  | zimcompNone
  | zimcompZip
  | zimcompLzma
  | zimcompZstd
deriving DecidableEq, Repr

/-- Modelled from the spec: the compression id held by bits 0-3 of the info byte.
`zimcompNone` is 1: the test `read_extended_cluster` writes the info byte `0x11`
and reads back `zimcompNone` with the extended flag.  The other three ids are
those of libzim's `zim.h`; only their being distinct and below 16 is used. -/
def CompressionType.toNat : CompressionType → Nat
  | .zimcompNone => 1
  | .zimcompZip => 2
  | .zimcompLzma => 4
  | .zimcompZstd => 5

/-- Modelled from the spec: the compression with a given id, if there is one. -/
def CompressionType.ofNat? : Nat → Option CompressionType
  | 1 => some .zimcompNone
  | 2 => some .zimcompZip
  | 4 => some .zimcompLzma
  | 5 => some .zimcompZstd
  | _ => none

/-- Modelled from the spec: the Compression Provider of section 4.1 for one
algorithm, reduced to whole buffers: the encoder "yields the final compressed
buffer", the decoder yields the decompressed bytes or fails with a
`CompressionError` (`none`).  The algorithms themselves (zlib, LZMA, Zstandard)
are libraries outside the repository. -/
structure Codec where
  compress : List Byte → List Byte
  uncompress : List Byte → Option (List Byte)

/-- The decoder of the provider gives back what its encoder was given. -/
def Codec.Lossless (c : Codec) : Prop :=
  ∀ d : List Byte, c.uncompress (c.compress d) = some d

/-- Modelled from the spec: `zim::writer::Cluster` (section 4.3): the compression
chosen at construction and the blobs in the order of the `addData` calls. -/
structure writer.Cluster where
  compression : CompressionType
  blobs : List (List Byte)
deriving DecidableEq

/-- Modelled from the spec: `writer::Cluster::Cluster(compression)`: no blob yet. -/
def writer.Cluster.new (compression : CompressionType) : writer.Cluster :=
  ⟨compression, []⟩

/-- Modelled from the spec: "`addData(bytes)`: appends one blob". -/
def writer.Cluster.addData (c : writer.Cluster) (data : List Byte) : writer.Cluster :=
  { c with blobs := c.blobs ++ [data] }

/-- Modelled from the spec: "`count()`: number of blobs added so far". -/
def writer.Cluster.count (c : writer.Cluster) : Nat :=
  c.blobs.length

/-- Modelled from the spec: "`getBlobSize(index)`: size of a previously added
blob; fails with `IndexError` if out of range" (`none`). -/
def writer.Cluster.getBlobSize (c : writer.Cluster) (index : Nat) : Option Nat :=
  match c.blobs.get? index with
  | some b => some b.length
  | none => none

/-- Modelled from the spec: the "running total size" of the blobs. -/
def writer.Cluster.size (c : writer.Cluster) : Nat :=
  (c.blobs.map List.length).sum

/-- Modelled from the spec: "`isExtended` = true iff total payload size or any
individual blob size would not fit a 32-bit offset", "i.e. ≥ 2^32 bytes". -/
def writer.Cluster.is_extended (c : writer.Cluster) : Bool :=
  decide (2 ^ 32 ≤ c.size) || c.blobs.any fun b => decide (2 ^ 32 ≤ b.length)

/-- The width in bytes of an entry of the offset table: "4 or 8 bytes each per
the extended flag". -/
def offsetWidth (isExtended : Bool) : Nat :=
  if isExtended then 8 else 4

/-- Modelled from the spec: the `count + 1` cumulative offsets; "entry `i` is the
cumulative byte offset ... at which blob `i` begins; entry `count` equals the
total payload size". -/
def writer.Cluster.blobOffsets (c : writer.Cluster) : List Nat :=
  (List.range (c.blobs.length + 1)).map fun i => ((c.blobs.map List.length).take i).sum

/-- Modelled from the spec: the serialized offset table, `count + 1` entries of
`offsetWidth` bytes, little-endian.  As in the table that the test
`read_extended_cluster` hands to the reader (first entry `5*sizeof(uint64_t)`
for four blobs), a serialized offset counts from the start of the table, so the
size of the table is added to the cumulative offset; the sum is stored in an
integer of the width of the entry. -/
def writer.Cluster.offsetTable (c : writer.Cluster) : List Byte :=
  let w := offsetWidth c.is_extended
  let delta := (c.blobs.length + 1) * w
  (c.blobOffsets.map fun o => toLittleEndian (o + delta) w).flatten

/-- Modelled from the spec: the info byte, "bits 0–3: compression id; bit 4:
extended-addressing flag". -/
def infoByte (compression : CompressionType) (isExtended : Bool) : Byte :=
  ⟨(compression.toNat + (if isExtended then 16 else 0)) % 256, Nat.mod_lt _ (by decide)⟩

/-- Modelled from the spec: `writer::Cluster::dump`: "If `compression != None`,
compress the concatenation of (offset table bytes ++ payload bytes) as one
stream via the Compression Provider; otherwise emit it uncompressed.  Always
prepend one uncompressed info byte".  `provider` gives the Compression Provider
of each algorithm. -/
def writer.Cluster.dump (c : writer.Cluster) (provider : CompressionType → Codec) :
    List Byte :=
  let content := c.offsetTable ++ c.blobs.flatten
  infoByte c.compression c.is_extended ::
    (if c.compression = .zimcompNone then content
     else (provider c.compression).compress content)

/-- Modelled from the spec: `Reader::sub_clusterReader(offset, size, &comp,
&extended)` on the bytes of one cluster: the info byte gives the compression
(bits 0-3) and the extended flag (bit 4); the result reads the rest of the
region, decompressed when the cluster is compressed.  `none` is an exception
(empty region, unknown compression id, `CompressionError`). -/
def sub_clusterReader (provider : CompressionType → Codec) (region : List Byte) :
    Option (List Byte × CompressionType × Bool) :=
  match region with
  | [] => none
  | clusterInfo :: rest =>
    match CompressionType.ofNat? (clusterInfo.val % 16) with
    | none => none
    | some comp =>
      let extended := decide (clusterInfo.val / 16 % 2 = 1)
      if comp = .zimcompNone then some (rest, comp, extended)
      else
        match (provider comp).uncompress rest with
        | none => none
        | some data => some (data, comp, extended)

/-- Modelled from the spec: the reader `zim::Cluster` (section 4.4): the flags it
was constructed with, the offsets read from the table and the uncompressed
region (offset table and payload) they point into. -/
structure Cluster where
  compression : CompressionType
  isExtended : Bool
  offsets : List Nat
  reader : List Byte
deriving DecidableEq

/-- Modelled from the spec: the offset table as the reader takes it from the
region.  The first entry is the size of the table (see `offsetTable`), so it
gives the number of entries, as in the test `read_extended_cluster` where the
first entry 40 stands for five entries of 8 bytes, that is four blobs.  `none`
when the table does not fit the region or the offsets decrease
("`offsetTable[i] <= offsetTable[i+1]` for all i"). -/
def Cluster.read_header (reader : List Byte) (isExtended : Bool) : Option (List Nat) :=
  let w := offsetWidth isExtended
  if reader.length < w then none
  else
    let offset := fieldAt reader 0 w
    let n_offset := offset / w
    if n_offset = 0 ∨ reader.length < n_offset * w then none
    else
      let offsets := (List.range n_offset).map fun i => fieldAt reader (i * w) w
      if offsets.Chain' (· ≤ ·) then some offsets else none

/-- Modelled from the spec: `Cluster::Cluster(reader, comp, isExtended)`:
"Construction takes a byte-range reader ... plus the (already-parsed)
`compression` and `isExtended` flags". -/
def Cluster.create (reader : List Byte) (comp : CompressionType) (isExtended : Bool) :
    Option Cluster :=
  match Cluster.read_header reader isExtended with
  | none => none
  | some offsets => some ⟨comp, isExtended, offsets, reader⟩

/-- Modelled from the spec: `Cluster::count()`, one less than the number of
entries of the offset table. -/
def Cluster.count (c : Cluster) : Nat :=
  c.offsets.length - 1

/-- Modelled from the spec: `Cluster::getCompression()`. -/
def Cluster.getCompression (c : Cluster) : CompressionType :=
  c.compression

/-- Modelled from the spec: `Cluster::is_extended()`. -/
def Cluster.is_extended (c : Cluster) : Bool :=
  c.isExtended

/-- Modelled from the spec: `Cluster::getBlobSize(index)`, the distance of two
consecutive offsets; `none` for an index out of range. -/
def Cluster.getBlobSize (c : Cluster) (index : Nat) : Option Nat :=
  match c.offsets.get? index, c.offsets.get? (index + 1) with
  | some o, some o1 => some (o1 - o)
  | _, _ => none

/-- Modelled from the spec: `Cluster::getBlob(index)`, the bytes "bounded by
`[offsetTable[index], offsetTable[index+1])`"; `none` for an index out of range
or a blob that the region does not hold. -/
def Cluster.getBlob (c : Cluster) (index : Nat) : Option (List Byte) :=
  match c.offsets.get? index, c.offsets.get? (index + 1) with
  | some o, some o1 =>
    if o1 ≤ c.reader.length then some ((c.reader.drop o).take (o1 - o)) else none
  | _, _ => none

/-- The provider whose encoders put the byte `0xfd` in front of the data and
whose decoders take it off again: a lossless provider to run the definitions
with. -/
def markProvider (_ : CompressionType) : Codec where
  compress d := 0xfd :: d
  uncompress
    | [] => none
    | b :: d => if b = 0xfd then some d else none

/-- Four short blobs, one of them empty. -/
def sampleBlobs : List (List Byte) :=
  [[49, 50, 51], [], [65, 66], [97]]

/-- Modelled from the spec: the values that `dump` puts into the entries of the
offset table, before they are cut to the width of an entry: the cumulative
offsets moved by the size of the table (see `offsetTable`). -/
def writer.Cluster.tableOffsets (c : writer.Cluster) : List Nat :=
  c.blobOffsets.map fun o => o + (c.blobs.length + 1) * offsetWidth c.is_extended

/-- Modelled from the spec: "`peekClusterHeader(offset, size) -> (compression,
isExtended)`, reads only the leading info byte of a cluster without
materializing the rest"; `none` for an empty region or an unknown compression
id. -/
def peekClusterHeader (region : List Byte) : Option (CompressionType × Bool) :=
  match region with
  | [] => none
  | clusterInfo :: _ =>
    match CompressionType.ofNat? (clusterInfo.val % 16) with
    | none => none
    | some comp => some (comp, decide (clusterInfo.val / 16 % 2 = 1))

/-- The offset table that the test `read_extended_cluster` writes behind the info
byte `0x11`: five 8-byte entries 40, 70, 96, 122 and `122 + 2^32 + 1024` for
blobs of 30, 26, 26 and `2^32 + 1024` bytes. -/
def extendedTable : List Byte :=
  [40, 0, 0, 0, 0, 0, 0, 0,
   70, 0, 0, 0, 0, 0, 0, 0,
   96, 0, 0, 0, 0, 0, 0, 0,
   122, 0, 0, 0, 0, 0, 0, 0,
   122, 4, 0, 0, 1, 0, 0, 0]

/-- A small uncompressed region with 4-byte entries: the table 12, 14, 17 and
the five payload bytes of a blob of two and a blob of three bytes. -/
def smallRegion : List Byte :=
  [12, 0, 0, 0, 14, 0, 0, 0, 17, 0, 0, 0, 65, 66, 97, 98, 99]

/-- Modelled from the spec: the decoder of a Compression Provider (section 4.1):
"a decoder that can be fed compressed bytes incrementally and yields
decompressed bytes incrementally, signaling end-of-stream".  `feed` takes the
state and the next compressed bytes and gives the new state, the bytes decoded
by this call, and whether the end of the stream was reached; `none` is a
`CompressionError`. -/
structure Decoder where
  State : Type
  init : State
  feed : State → List Byte → Option (State × List Byte × Bool)

/-- The decoder fed with chunk after chunk, up to the chunk at which it signals
the end of the stream: the state reached, all the bytes decoded, and whether the
end was signalled. -/
def Decoder.feedAll (dec : Decoder) (st : dec.State) :
    List (List Byte) → Option (dec.State × List Byte × Bool)
  | [] => some (st, [], false)
  | c :: cs =>
    match dec.feed st c with
    | none => none
    | some (st1, out, eos) =>
      if eos then some (st1, out, true)
      else
        match dec.feedAll st1 cs with
        | none => none
        | some (st2, out2, eos2) => some (st2, out ++ out2, eos2)

/-- The contract between the encoder `compress` and the decoder `dec` of one
provider: whatever follows the compressed stream of `d` and however the input
is cut into chunks, feeding the decoder the chunks of a beginning of the input
never fails and gives a beginning of `d`; it gives all of `d` when the decoder
signals the end of the stream, and when the whole compressed stream has been
fed. -/
def Decoder.Decodes (dec : Decoder) (compress : List Byte → List Byte) : Prop :=
  ∀ (d g : List Byte) (chunks : List (List Byte)),
    (∃ t, chunks.flatten ++ t = compress d ++ g) →
    ∃ (st : dec.State) (out : List Byte) (eos : Bool),
      dec.feedAll dec.init chunks = some (st, out, eos)
      ∧ (∃ t, out ++ t = d)
      ∧ (eos = true → out = d)
      ∧ ((∃ t, compress d ++ t = chunks.flatten) → out = d)

/-- The errors of the stream: "`CompressionError` (corrupt/invalid compressed
stream), `TruncatedStreamError` (fewer bytes available than requested)". -/
inductive DecodeError where
  | compressionError
  | truncatedStreamError
deriving DecidableEq, Repr

/-- `DecodedDataStream::CHUNK_SIZE`; "1024 is DecodedDataStream::CHUNK_SIZE"
(`test/decodeddatastream.cpp`). -/
def CHUNK_SIZE : Nat := 1024

/-- Modelled from the spec: the state of a `DecodedDataStream` (section 4.2): the
sequential compressed source, how many of its bytes may still be read ("the
stream's total expected compressed length is known up front and bounds how much
source is ever read"), the state of the decoder, the "pending buffer of
already-decoded-but-unconsumed bytes", and whether the decoder has signalled
the end of the stream. -/
structure DecodedDataStream (dec : Decoder) where
  encodedDataStream : IDataStream
  inputBytesLeft : Nat
  decoderState : dec.State
  pending : List Byte
  endOfStream : Bool

/-- Modelled from the spec: `DecodedDataStream(inputData, inputSize)`. -/
def DecodedDataStream.new (dec : Decoder) (inputData : IDataStream) (inputSize : Nat) :
    DecodedDataStream dec :=
  ⟨inputData, inputSize, dec.init, [], false⟩

/-- Modelled from the spec: "decoding further chunks until enough bytes are
available or the decoder signals end-of-stream", also ending when no input is
left.  Every round reads at least one byte of input, so `inputBytesLeft` rounds
are enough: the first argument counts the rounds that remain. -/
def DecodedDataStream.decodeMore {dec : Decoder} (size : Nat) :
    Nat → DecodedDataStream dec → Except DecodeError (DecodedDataStream dec)
  | 0, s => .ok s
  | rounds + 1, s =>
    if size ≤ s.pending.length ∨ s.endOfStream = true ∨ s.inputBytesLeft = 0 then .ok s
    else
      match IDataStream.readBlob s.encodedDataStream (min CHUNK_SIZE s.inputBytesLeft) with
      | none => .error .truncatedStreamError
      | some (chunk, rest) =>
        match dec.feed s.decoderState chunk with
        | none => .error .compressionError
        | some (st, out, eos) =>
          DecodedDataStream.decodeMore size rounds
            { encodedDataStream := rest
              inputBytesLeft := s.inputBytesLeft - min CHUNK_SIZE s.inputBytesLeft
              decoderState := st
              pending := s.pending ++ out
              endOfStream := eos }

/-- Modelled from the spec: `readBlob(size)`: "draining the pending buffer and
decoding further chunks until enough bytes are available or the decoder signals
end-of-stream"; "`readBlob` past the end of available decoded data signals a
`TruncatedStreamError`".  The result is the blob and the stream after the call. -/
def DecodedDataStream.readBlob {dec : Decoder} (s : DecodedDataStream dec) (size : Nat) :
    Except DecodeError (List Byte × DecodedDataStream dec) :=
  match DecodedDataStream.decodeMore size s.inputBytesLeft s with
  | .error e => .error e
  | .ok s1 =>
    if size ≤ s1.pending.length then
      .ok (s1.pending.take size, { s1 with pending := s1.pending.drop size })
    else .error .truncatedStreamError

/-- Successive `readBlob` calls with the given sizes: the blobs in the order of
the calls, and the stream after the last call; the first exception ends the
sequence. -/
def DecodedDataStream.readBlobs {dec : Decoder} :
    DecodedDataStream dec → List Nat → Except DecodeError (List (List Byte) × DecodedDataStream dec)
  | s, [] => .ok ([], s)
  | s, size :: sizes =>
    match s.readBlob size with
    | .error e => .error e
    | .ok (blob, s1) =>
      match DecodedDataStream.readBlobs s1 sizes with
      | .error e => .error e
      | .ok (blobs, s2) => .ok (blob :: blobs, s2)

/-- The consecutive segments of `d` of the given lengths. -/
def segments (d : List Byte) : List Nat → List (List Byte)
  | [] => []
  | size :: sizes => d.take size :: segments (d.drop size) sizes

/-- The state of the decoder of the tagged format: before a tag, before the
byte that follows the tag 1, or behind the end tag 0. -/
inductive TagState where
  | tag
  | literal
  | finished
deriving DecidableEq, Repr

/-- The encoder of the tagged format, a provider to run the definitions with:
every byte is preceded by the tag 1, the tag 0 ends the stream. -/
def tagCompress (d : List Byte) : List Byte :=
  (d.flatMap fun b => [1, b]) ++ [0]

/-- The decoder of the tagged format on a run of input bytes: the state reached
and the bytes decoded; whatever follows the end tag is not looked at; a tag other
than 0 and 1 is an error. -/
def tagRun : TagState → List Byte → Option (TagState × List Byte)
  | st, [] => some (st, [])
  | .finished, _ :: _ => some (.finished, [])
  | .tag, b :: bs =>
    if b = 1 then tagRun .literal bs
    else if b = 0 then some (.finished, [])
    else none
  | .literal, b :: bs =>
    match tagRun .tag bs with
    | none => none
    | some (st, out) => some (st, b :: out)

/-- The incremental decoder of the tagged format. -/
def tagDecoder : Decoder where
  State := TagState
  init := .tag
  feed st chunk :=
    match tagRun st chunk with
    | none => none
    | some (st1, out) => some (st1, out, decide (st1 = .finished))

/-- What is known of a stream that was constructed over `input` and has handed
out the bytes `delivered` so far: the chunks fed to the decoder and the unread
source make up `input`, the source holds exactly the bytes that may still be
read, and the decoder, fed with those chunks from its initial state, is in the
state of the stream and has decoded `delivered` followed by the pending bytes. -/
def DecodedDataStream.Tracks {dec : Decoder} (s : DecodedDataStream dec)
    (input delivered : List Byte) : Prop :=
  ∃ fed : List (List Byte),
    fed.flatten ++ s.encodedDataStream = input
    ∧ s.encodedDataStream.length = s.inputBytesLeft
    ∧ dec.feedAll dec.init fed = some (s.decoderState, delivered ++ s.pending, s.endOfStream)

/-! ## writer/titleListingHandler.cpp

`zim.h`, `zim/blob.h` and `writer/_dirent.h` are not among the sources. -/

/-- `sizeof(zim::offset_type)`: an offset has 8 bytes (the positions of the header
are stored with `toLittleEndian` 8 bytes apart). -/
def sizeof_offset_type : Nat := 8

/-- Modelled from the spec: `zim.h` and `writer/_dirent.h` are not among the
sources.  The size of the integer `getIdx().v`, an entry index: 4 bytes, as the
entry indices of the header layout ("main-page entry index", "layout-page entry
index", size 4), which `fileheader.cpp` reads with `read<uint32_t>()` and stores
4 bytes apart. -/
def sizeof_entry_index_type : Nat := 4

/-- Modelled from the spec: `writer::Dirent` as far as the title listing looks at
it: the title that orders the set and the numeric index `getIdx().v`. -/
structure writer.Dirent where
  title : List Byte
  idx : Nat
deriving DecidableEq

/-- The data members of `ListingProvider`: the set of dirents as the list of its
elements in iteration order, the member `char buffer[sizeof(zim::offset_type)]`,
and the iterator `m_it` as the number of elements behind it. -/
structure ListingProvider where
  mp_dirents : List writer.Dirent
  buffer : List Byte
  m_it : Nat
deriving DecidableEq

/-- `ListingProvider::ListingProvider(dirents)`: the iterator at `begin()`.  The
initialiser list names `mp_dirents` and `m_it` only; `buffer` is what the memory
of the object holds. -/
def ListingProvider.new (dirents : List writer.Dirent) (buffer : List Byte) :
    ListingProvider :=
  ⟨dirents, buffer, 0⟩

/-- `ListingProvider::getSize`. -/
def ListingProvider.getSize (self : ListingProvider) : Nat :=
  self.mp_dirents.length * sizeof_offset_type

/-- `ListingProvider::feed`: the blob returned (`Blob(nullptr, 0)` is the empty
list) and the provider after the call.  `toLittleEndian` stores the bytes of the
index at the start of `buffer`; the blob is the first `sizeof(zim::offset_type)`
bytes of `buffer`. -/
def ListingProvider.feed (self : ListingProvider) : List Byte × ListingProvider :=
  match self.mp_dirents.get? self.m_it with
  | none => ([], self)
  | some dirent =>
    let buffer := copyTo self.buffer 0 (toLittleEndian dirent.idx sizeof_entry_index_type)
    (buffer.take sizeof_offset_type, { self with buffer := buffer, m_it := self.m_it + 1 })

/-- The blobs of `n` successive calls of `feed`, and the provider after them. -/
def ListingProvider.feedN : Nat → ListingProvider → List (List Byte) × ListingProvider
  | 0, self => ([], self)
  | n + 1, self =>
    let r := self.feed
    let rs := ListingProvider.feedN n r.2
    (r.1 :: rs.1, rs.2)

/-- `DirentSet::insert` for `std::multiset<Dirent*, TitleCompare>`, the set being
the list of its elements in iteration order: the new element goes in front of
the first element that it is ordered before, behind every other one, so that an
element equivalent to it stays in the set.  `compareTitle` is the function of
`writer/_dirent.h` that `TitleCompare` calls; it is not among the sources. -/
def DirentSet.insert (compareTitle : writer.Dirent → writer.Dirent → Bool)
    (dirent : writer.Dirent) : List writer.Dirent → List writer.Dirent
  | [] => [dirent]
  | e :: es =>
    if compareTitle dirent e then dirent :: e :: es
    else e :: DirentSet.insert compareTitle dirent es

/-- The data member `m_dirents` of `TitleListingHandler` (`mp_creatorData` is not
used by `handle` and `getContentProvider`). -/
structure TitleListingHandler where
  m_dirents : List writer.Dirent
deriving DecidableEq

/-- `TitleListingHandler::TitleListingHandler(data)`: the set is empty. -/
def TitleListingHandler.new : TitleListingHandler :=
  ⟨[]⟩

/-- `TitleListingHandler::handle(dirent, hints, item)`:
`m_dirents.insert(dirent)`. -/
def TitleListingHandler.handle (compareTitle : writer.Dirent → writer.Dirent → Bool)
    (self : TitleListingHandler) (dirent : writer.Dirent) : TitleListingHandler :=
  ⟨DirentSet.insert compareTitle dirent self.m_dirents⟩

/-- `TitleListingHandler::getContentProvider`: a `ListingProvider` over the set
as it is at the call; `buffer` is what the memory of the new object holds. -/
def TitleListingHandler.getContentProvider (self : TitleListingHandler)
    (buffer : List Byte) : ListingProvider :=
  ListingProvider.new self.m_dirents buffer

/-- The order of the titles as lists of bytes, shorter first among titles of
different length, to run `handle` with. -/
def compareTitleSample (d1 d2 : writer.Dirent) : Bool :=
  decide (d1.title.length < d2.title.length)

/-- Three dirents, two of them with the same title and one given twice over. -/
def sampleDirents : List writer.Dirent :=
  [⟨[66, 66], 7⟩, ⟨[65], 300⟩, ⟨[66, 66], 7⟩, ⟨[67], 2⟩]

/-! ## Sample headers -/

/-- A header that passes every check: classic format, one article in one
cluster, all tables right behind the header. -/
def sampleHeader : Fileheader :=
  ⟨5, 0, Uuid.zero, 1, 1, 80, 80, 80, 80, 0, 0, 0⟩

/-- The 80 bytes of `sampleHeader`. -/
def sampleBytes : List Byte :=
  [0x5a, 0x49, 0x4d, 0x04, 5, 0, 0, 0,
   0, 0, 0, 0, 0, 0, 0, 0, 0, 0, 0, 0, 0, 0, 0, 0,
   1, 0, 0, 0, 1, 0, 0, 0,
   80, 0, 0, 0, 0, 0, 0, 0, 80, 0, 0, 0, 0, 0, 0, 0,
   80, 0, 0, 0, 0, 0, 0, 0, 80, 0, 0, 0, 0, 0, 0, 0,
   0, 0, 0, 0, 0, 0, 0, 0,
   0, 0, 0, 0, 0, 0, 0, 0]

/-- A header with an article but no cluster, which `sanity_check` rejects. -/
def unbalancedHeader : Fileheader :=
  ⟨5, 0, ⟨[1, 2, 3, 4, 5, 6, 7, 8, 9, 10, 11, 12, 13, 14, 15, 16], rfl⟩,
    1, 0, 80, 80, 80, 80, 0, 0, 0⟩

/-- The 80 bytes of `unbalancedHeader`: `articleCount` 1 at offset 24,
`clusterCount` 0 at offset 28. -/
def unbalancedBytes : List Byte :=
  [0x5a, 0x49, 0x4d, 0x04, 5, 0, 0, 0,
   1, 2, 3, 4, 5, 6, 7, 8, 9, 10, 11, 12, 13, 14, 15, 16,
   1, 0, 0, 0, 0, 0, 0, 0,
   80, 0, 0, 0, 0, 0, 0, 0, 80, 0, 0, 0, 0, 0, 0, 0,
   80, 0, 0, 0, 0, 0, 0, 0, 80, 0, 0, 0, 0, 0, 0, 0,
   0, 0, 0, 0, 0, 0, 0, 0,
   0, 0, 0, 0, 0, 0, 0, 0]

/-- The bytes of `sampleHeader` with `urlPtrPos` (offset 32) lowered to 79, one
below `mimeListPos`. -/
def urlBelowBytes : List Byte :=
  [0x5a, 0x49, 0x4d, 0x04, 5, 0, 0, 0,
   0, 0, 0, 0, 0, 0, 0, 0, 0, 0, 0, 0, 0, 0, 0, 0,
   1, 0, 0, 0, 1, 0, 0, 0,
   79, 0, 0, 0, 0, 0, 0, 0, 80, 0, 0, 0, 0, 0, 0, 0,
   80, 0, 0, 0, 0, 0, 0, 0, 80, 0, 0, 0, 0, 0, 0, 0,
   0, 0, 0, 0, 0, 0, 0, 0,
   0, 0, 0, 0, 0, 0, 0, 0]

/-- The buffer `char header[80]` holding zeros. -/
def zeroBuffer : List Byte := List.replicate 80 0

/-- A header as `sampleHeader` with the unknown major version 7. -/
def futureHeader : Fileheader :=
  ⟨7, 0, Uuid.zero, 1, 1, 80, 80, 80, 80, 0, 0, 0⟩

/-- A header as `sampleHeader` with `mimeListPos` 0. -/
def noMimeHeader : Fileheader :=
  ⟨5, 0, Uuid.zero, 1, 1, 80, 80, 80, 0, 0, 0, 0⟩

/-- The bytes of `sampleHeader` with another minor version (1 at offset 6),
another uuid (offset 8), and `mainPage` (offset 64) and `layoutPage` (offset 68)
set to `0xffffffff`, far beyond the one article. -/
def otherIdentityBytes : List Byte :=
  [0x5a, 0x49, 0x4d, 0x04, 5, 0, 1, 0,
   1, 2, 3, 4, 5, 6, 7, 8, 9, 10, 11, 12, 13, 14, 15, 16,
   1, 0, 0, 0, 1, 0, 0, 0,
   80, 0, 0, 0, 0, 0, 0, 0, 80, 0, 0, 0, 0, 0, 0, 0,
   80, 0, 0, 0, 0, 0, 0, 0, 80, 0, 0, 0, 0, 0, 0, 0,
   255, 255, 255, 255, 255, 255, 255, 255,
   0, 0, 0, 0, 0, 0, 0, 0]

/-! ## Little-endian coding -/

@[simp] theorem toLittleEndian_length (d n : Nat) : (toLittleEndian d n).length = n := by
  induction n generalizing d with
  | zero => rfl
  | succ n ih => simp [toLittleEndian, ih]

theorem fromLittleEndian_toLittleEndian_mod (d n : Nat) :
    fromLittleEndian (toLittleEndian d n) = d % 256 ^ n := by
  induction n generalizing d with
  | zero => simp [toLittleEndian, fromLittleEndian, Nat.mod_one]
  | succ n ih =>
    simp only [toLittleEndian, fromLittleEndian, ih]
    rw [pow_succ, mul_comm (256 ^ n) 256, Nat.mod_mul]

theorem fromLittleEndian_toLittleEndian (d n : Nat) (h : d < 256 ^ n) :
    fromLittleEndian (toLittleEndian d n) = d := by
  rw [fromLittleEndian_toLittleEndian_mod, Nat.mod_eq_of_lt h]

theorem fromLittleEndian_lt (bs : List Byte) : fromLittleEndian bs < 256 ^ bs.length := by
  induction bs with
  | nil => simp [fromLittleEndian]
  | cons b bs ih =>
    simp only [fromLittleEndian, List.length_cons, pow_succ]
    have := b.isLt
    omega

theorem toLittleEndian_fromLittleEndian (bs : List Byte) :
    toLittleEndian (fromLittleEndian bs) bs.length = bs := by
  induction bs with
  | nil => rfl
  | cons b bs ih =>
    have hb := b.isLt
    have h1 : (b.val + 256 * fromLittleEndian bs) % 256 = b.val := by omega
    have h2 : (b.val + 256 * fromLittleEndian bs) / 256 = fromLittleEndian bs := by omega
    simp only [fromLittleEndian, List.length_cons, toLittleEndian, h1, h2, ih]

/-! ## Buffers and streams -/

theorem copyTo_at_length (p t src : List Byte) (o : Nat) (ho : p.length = o) :
    copyTo (p ++ t) o src = (p ++ src) ++ t.drop src.length := by
  subst ho
  simp [copyTo, List.drop_append]

theorem readBlob_drop (ds : IDataStream) (o n : Nat) (h : o + n ≤ ds.length) :
    IDataStream.readBlob (List.drop o ds) n
      = some ((List.drop o ds).take n, List.drop (o + n) ds) := by
  have h1 : n ≤ (List.drop o ds).length := by simp; omega
  rw [IDataStream.readBlob, if_pos h1, List.drop_drop]

theorem read_drop (ds : IDataStream) (o n : Nat) (h : o + n ≤ ds.length) :
    IDataStream.read (List.drop o ds) n
      = some (fromLittleEndian ((List.drop o ds).take n), List.drop (o + n) ds) := by
  simp [IDataStream.read, readBlob_drop ds o n h]

/-! ## The header codec -/

theorem copyTo_step (p header src : List Byte) (o o1 : Nat) (ho : p.length = o)
    (ho1 : o + src.length = o1) :
    copyTo (p ++ List.drop o header) o src = (p ++ src) ++ List.drop o1 header := by
  subst ho1
  rw [copyTo_at_length p _ src o ho, List.drop_drop, Nat.add_comm]

theorem Fileheader.write_eq (self : Fileheader) (header : List Byte)
    (hlen : header.length = 80) :
    self.write header
      = toLittleEndian Fileheader.zimMagic 4 ++ toLittleEndian self.majorVersion 2
        ++ toLittleEndian self.minorVersion 2 ++ self.uuid.data
        ++ toLittleEndian self.articleCount 4 ++ toLittleEndian self.clusterCount 4
        ++ toLittleEndian self.urlPtrPos 8 ++ toLittleEndian self.titleIdxPos 8
        ++ toLittleEndian self.clusterPtrPos 8 ++ toLittleEndian self.mimeListPos 8
        ++ toLittleEndian self.mainPage 4 ++ toLittleEndian self.layoutPage 4
        ++ toLittleEndian self.checksumPos 8 := by
  have hu := self.uuid.size_eq
  have h0 : copyTo header 0 (toLittleEndian Fileheader.zimMagic 4)
      = ([] ++ toLittleEndian Fileheader.zimMagic 4) ++ List.drop 4 header := by
    have := copyTo_step [] header (toLittleEndian Fileheader.zimMagic 4) 0 4 rfl (by simp)
    simpa using this
  unfold Fileheader.write
  simp only []
  rw [h0]
  rw [copyTo_step _ header _ 4 6 (by simp) (by simp [hu]), copyTo_step _ header _ 6 8 (by simp) (by simp [hu]),
    copyTo_step _ header _ 8 24 (by simp) (by simp [hu]), copyTo_step _ header _ 24 28 (by simp [hu]) (by simp [hu]),
    copyTo_step _ header _ 28 32 (by simp [hu]) (by simp [hu]), copyTo_step _ header _ 32 40 (by simp [hu]) (by simp [hu]),
    copyTo_step _ header _ 40 48 (by simp [hu]) (by simp [hu]), copyTo_step _ header _ 48 56 (by simp [hu]) (by simp [hu]),
    copyTo_step _ header _ 56 64 (by simp [hu]) (by simp [hu]), copyTo_step _ header _ 64 68 (by simp [hu]) (by simp [hu]),
    copyTo_step _ header _ 68 72 (by simp [hu]) (by simp [hu]), copyTo_step _ header _ 72 80 (by simp [hu]) (by simp [hu])]
  have hd : List.drop 80 header = [] := List.drop_eq_nil_of_le (by omega)
  rw [hd, List.append_nil, List.take_of_length_le (by simp [hu, Fileheader.size])]
  simp

theorem read_at (ds : IDataStream) (o n o1 : Nat) (ho : o + n = o1) (h : o1 ≤ ds.length) :
    IDataStream.read (List.drop o ds) n = some (fieldAt ds o n, List.drop o1 ds) := by
  subst ho
  exact read_drop ds o n h

theorem Fileheader.read_bad_magic (self : Fileheader) (ds : IDataStream)
    (hlen : 4 ≤ ds.length) (hmagic : fieldAt ds 0 4 ≠ Fileheader.zimMagic) :
    self.read ds = ⟨self, ds.drop 4, some (.format .invalidMagicNumber)⟩ := by
  have r0 := read_at ds 0 4 4 rfl hlen
  rw [List.drop_zero] at r0
  simp [Fileheader.read, r0, hmagic]

theorem Fileheader.read_bad_version (self : Fileheader) (ds : IDataStream)
    (hlen : 6 ≤ ds.length) (hmagic : fieldAt ds 0 4 = Fileheader.zimMagic)
    (hmajor : fieldAt ds 4 2 ≠ 5 ∧ fieldAt ds 4 2 ≠ 6) :
    self.read ds = ⟨self, ds.drop 6, some (.format .invalidVersion)⟩ := by
  have r0 := read_at ds 0 4 4 rfl (by omega)
  rw [List.drop_zero] at r0
  have r4 := read_at ds 4 2 6 rfl hlen
  simp [Fileheader.read, r0, r4, hmagic, hmajor, Fileheader.zimClassicMajorVersion,
    Fileheader.zimExtendedMajorVersion]

theorem Fileheader.read_parsed (self : Fileheader) (ds : IDataStream)
    (hlen : 80 ≤ ds.length) (hmagic : fieldAt ds 0 4 = Fileheader.zimMagic)
    (hmajor : fieldAt ds 4 2 = 5 ∨ fieldAt ds 4 2 = 6) :
    self.read ds = ⟨Fileheader.ofBytes ds, ds.drop 80,
      match (Fileheader.ofBytes ds).sanity_check with
      | .error e => some (.format e)
      | .ok _ => none⟩ := by
  have r0 := read_at ds 0 4 4 rfl (by omega)
  rw [List.drop_zero] at r0
  have r4 := read_at ds 4 2 6 rfl (by omega)
  have r6 := read_at ds 6 2 8 rfl (by omega)
  have r8 := readBlob_drop ds 8 16 (by omega)
  have r24 := read_at ds 24 4 28 rfl (by omega)
  have r28 := read_at ds 28 4 32 rfl (by omega)
  have r32 := read_at ds 32 8 40 rfl (by omega)
  have r40 := read_at ds 40 8 48 rfl (by omega)
  have r48 := read_at ds 48 8 56 rfl (by omega)
  have r56 := read_at ds 56 8 64 rfl (by omega)
  have r64 := read_at ds 64 4 68 rfl (by omega)
  have r68 := read_at ds 68 4 72 rfl (by omega)
  have r72 := read_at ds 72 8 80 rfl (by omega)
  have hm : ¬ (fieldAt ds 4 2 ≠ Fileheader.zimClassicMajorVersion
      ∧ fieldAt ds 4 2 ≠ Fileheader.zimExtendedMajorVersion) := by
    simp only [Fileheader.zimClassicMajorVersion, Fileheader.zimExtendedMajorVersion]
    omega
  unfold Fileheader.read
  simp only [r0, r4, r6, r8, r24, r28, r32, r40, r48, r56, r64, r68, r72, hmagic, hm,
    ne_eq, not_true_eq_false, if_false]
  cases hs : (Fileheader.ofBytes ds).sanity_check <;>
    simp only [Fileheader.ofBytes] at hs <;> simp [hs, Fileheader.ofBytes]

theorem readBlob_eq_some_iff (ds : IDataStream) (n : Nat) (b : List Byte) (ds1 : IDataStream) :
    IDataStream.readBlob ds n = some (b, ds1)
      ↔ n ≤ ds.length ∧ b = ds.take n ∧ ds1 = ds.drop n := by
  unfold IDataStream.readBlob
  split
  · simp only [Option.some.injEq, Prod.mk.injEq]
    constructor
    · rintro ⟨h1, h2⟩; exact ⟨by assumption, h1.symm, h2.symm⟩
    · rintro ⟨_, h1, h2⟩; exact ⟨h1.symm, h2.symm⟩
  · constructor
    · intro h; exact absurd h (by simp)
    · rintro ⟨h, _⟩; contradiction

theorem read_eq_some_iff (ds : IDataStream) (n v : Nat) (ds1 : IDataStream) :
    IDataStream.read ds n = some (v, ds1)
      ↔ n ≤ ds.length ∧ v = fromLittleEndian (ds.take n) ∧ ds1 = ds.drop n := by
  unfold IDataStream.read IDataStream.readBlob
  split
  · rename_i b ds2 hb
    split at hb
    · simp only [Option.some.injEq, Prod.mk.injEq] at hb
      obtain ⟨rfl, rfl⟩ := hb
      simp only [Option.some.injEq, Prod.mk.injEq]
      constructor
      · rintro ⟨h1, h2⟩; exact ⟨by assumption, h1.symm, h2.symm⟩
      · rintro ⟨_, h1, h2⟩; exact ⟨h1.symm, h2.symm⟩
    · simp at hb
  · rename_i hb
    split at hb
    · simp at hb
    · constructor
      · intro h; exact absurd h (by simp)
      · rintro ⟨h, _⟩; contradiction

theorem sanity_check_ne_invalidMagicNumber (h : Fileheader) :
    h.sanity_check ≠ .error .invalidMagicNumber := by
  unfold Fileheader.sanity_check
  repeat' split
  all_goals simp

theorem sanity_check_ne_invalidVersion (h : Fileheader) :
    h.sanity_check ≠ .error .invalidVersion := by
  unfold Fileheader.sanity_check
  repeat' split
  all_goals simp

theorem Fileheader.read_short (self : Fileheader) (ds : IDataStream) (hlen : ds.length < 80) :
    (self.read ds).thrown ≠ none := by
  unfold Fileheader.read
  repeat' split
  all_goals try simp
  all_goals
    simp only [read_eq_some_iff, readBlob_eq_some_iff] at *
    casesm* _ ∧ _
    subst_vars
    simp only [List.length_drop] at *
    omega

/-! ### Auxiliary facts on `write` and `read` -/

theorem Fileheader.write_slices (self : Fileheader) (header : List Byte)
    (hlen : header.length = 80) :
    (self.write header).length = 80
    ∧ (self.write header).take 4 = [0x5a, 0x49, 0x4d, 0x04]
    ∧ (self.write header).take 4 = toLittleEndian Fileheader.zimMagic 4
    ∧ ((self.write header).drop 4).take 2 = toLittleEndian self.majorVersion 2
    ∧ ((self.write header).drop 6).take 2 = toLittleEndian self.minorVersion 2
    ∧ ((self.write header).drop 8).take 16 = self.uuid.data
    ∧ ((self.write header).drop 24).take 4 = toLittleEndian self.articleCount 4
    ∧ ((self.write header).drop 28).take 4 = toLittleEndian self.clusterCount 4
    ∧ ((self.write header).drop 32).take 8 = toLittleEndian self.urlPtrPos 8
    ∧ ((self.write header).drop 40).take 8 = toLittleEndian self.titleIdxPos 8
    ∧ ((self.write header).drop 48).take 8 = toLittleEndian self.clusterPtrPos 8
    ∧ ((self.write header).drop 56).take 8 = toLittleEndian self.mimeListPos 8
    ∧ ((self.write header).drop 64).take 4 = toLittleEndian self.mainPage 4
    ∧ ((self.write header).drop 68).take 4 = toLittleEndian self.layoutPage 4
    ∧ ((self.write header).drop 72).take 8 = toLittleEndian self.checksumPos 8
    ∧ ∀ header2 : List Byte, header2.length = 80 →
        self.write header2 = self.write header := by
  have hu := self.uuid.size_eq
  have hw := Fileheader.write_eq self header hlen
  have hind : ∀ header2 : List Byte, header2.length = 80 →
      self.write header2 = self.write header := by
    intro header2 h2
    rw [hw, Fileheader.write_eq self header2 h2]
  refine ⟨?_, ?_, ?_, ?_, ?_, ?_, ?_, ?_, ?_, ?_, ?_, ?_, ?_, ?_, ?_, hind⟩
  · rw [hw]; simp [hu]
  · rw [hw]; simp [List.take_append_eq_append_take]; decide
  · rw [hw]; simp [List.take_append_eq_append_take]
  all_goals (rw [hw]; simp [List.take_append_eq_append_take, List.drop_append_eq_append_drop, List.drop_eq_nil_of_le, hu])

theorem fieldAt_append_left (bs rest : List Byte) (o w : Nat) (h : o + w ≤ bs.length) :
    fieldAt (bs ++ rest) o w = fieldAt bs o w := by
  unfold fieldAt
  congr 1
  rw [List.drop_append_of_le_length (by omega), List.take_append_of_le_length]
  simp only [List.length_drop]
  omega

theorem slice_append_left (bs rest : List Byte) (o w : Nat) (h : o + w ≤ bs.length) :
    ((bs ++ rest).drop o).take w = (bs.drop o).take w := by
  rw [List.drop_append_of_le_length (by omega), List.take_append_of_le_length]
  simp only [List.length_drop]
  omega

theorem Uuid.copyFrom_data (u v : Uuid) : Uuid.copyFrom u v.data = v := by
  have hv := v.size_eq
  cases v with
  | mk d hd =>
    simp only [Uuid.copyFrom, Uuid.mk.injEq]
    simp only at hv
    rw [List.take_append_of_le_length (by omega), List.take_of_length_le (by omega)]

theorem Fileheader.ofBytes_write (h : Fileheader) (header rest : List Byte)
    (hlen : header.length = 80) (hr : h.InRange) :
    Fileheader.ofBytes (h.write header ++ rest) = h := by
  have hw := Fileheader.write_slices h header hlen
  obtain ⟨h80, -, -, h4, h6, h8, h24, h28, h32, h40, h48, h56, h64, h68, h72, -⟩ := hw
  obtain ⟨r1, r2, r3, r4, r5, r6, r7, r8, r9, r10, r11⟩ := hr
  have e : ∀ o w v : Nat, o + w ≤ 80 → v < 256 ^ w →
      ((h.write header).drop o).take w = toLittleEndian v w →
      fieldAt (h.write header ++ rest) o w = v := by
    intro o w v how hv hs
    rw [fieldAt_append_left _ _ _ _ (by omega), fieldAt, hs,
      fromLittleEndian_toLittleEndian _ _ hv]
  cases h with
  | mk a1 a2 a3 a4 a5 a6 a7 a8 a9 a10 a11 a12 =>
    simp only at *
    simp only [Fileheader.ofBytes, Fileheader.mk.injEq]
    refine ⟨e _ _ _ (by omega) (by omega) h4, e _ _ _ (by omega) (by omega) h6, ?_,
      e _ _ _ (by omega) (by omega) h24, e _ _ _ (by omega) (by omega) h28,
      e _ _ _ (by omega) (by omega) h32, e _ _ _ (by omega) (by omega) h40,
      e _ _ _ (by omega) (by omega) h48, e _ _ _ (by omega) (by omega) h56,
      e _ _ _ (by omega) (by omega) h64, e _ _ _ (by omega) (by omega) h68,
      e _ _ _ (by omega) (by omega) h72⟩
    rw [slice_append_left _ _ _ _ (by omega), h8]
    exact Uuid.copyFrom_data _ _

theorem read_eq_none (ds : IDataStream) (n : Nat) (h : ds.length < n) :
    IDataStream.read ds n = none := by
  have : ¬ n ≤ ds.length := by omega
  simp [IDataStream.read, IDataStream.readBlob, this]

theorem Fileheader.read_no_magic (self : Fileheader) (ds : IDataStream)
    (hlen : ds.length < 4) : self.read ds = ⟨self, ds, some .truncatedStream⟩ := by
  simp [Fileheader.read, read_eq_none ds 4 hlen]

theorem Fileheader.read_no_version (self : Fileheader) (ds : IDataStream)
    (hlen4 : 4 ≤ ds.length) (hlen : ds.length < 6)
    (hmagic : fieldAt ds 0 4 = Fileheader.zimMagic) :
    self.read ds = ⟨self, ds.drop 4, some .truncatedStream⟩ := by
  have r0 := read_at ds 0 4 4 rfl hlen4
  rw [List.drop_zero] at r0
  have r4 : IDataStream.read (List.drop 4 ds) 2 = none :=
    read_eq_none _ 2 (by simp only [List.length_drop]; omega)
  simp [Fileheader.read, r0, r4, hmagic]

theorem Fileheader.read_truncated (self : Fileheader) (ds : IDataStream)
    (hlen6 : 6 ≤ ds.length) (hlen : ds.length < 80)
    (hmagic : fieldAt ds 0 4 = Fileheader.zimMagic)
    (hmajor : fieldAt ds 4 2 = 5 ∨ fieldAt ds 4 2 = 6) :
    (self.read ds).thrown = some .truncatedStream := by
  have r0 := read_at ds 0 4 4 rfl (by omega)
  rw [List.drop_zero] at r0
  have r4 := read_at ds 4 2 6 rfl (by omega)
  have hm : ¬ (fieldAt ds 4 2 ≠ Fileheader.zimClassicMajorVersion
      ∧ fieldAt ds 4 2 ≠ Fileheader.zimExtendedMajorVersion) := by
    simp only [Fileheader.zimClassicMajorVersion, Fileheader.zimExtendedMajorVersion]
    omega
  unfold Fileheader.read
  simp only [r0, r4, hmagic, hm, ne_eq, not_true_eq_false, if_false]
  repeat' split
  all_goals try rfl
  all_goals
    exfalso
    simp only [read_eq_some_iff, readBlob_eq_some_iff] at *
    casesm* _ ∧ _
    subst_vars
    simp only [List.length_drop] at *
    omega

/-! ## The claims on the file header -/

/-- C1: a header whose fields hold values of their types, whose major version is
5 or 6 and which passes `sanity_check` is read back unchanged from the 80 bytes
that `write` emits: `read` throws nothing, consumes exactly those 80 bytes, and
leaves the object it was called on equal to the written header in every field. -/
theorem Fileheader.read_write (h self : Fileheader) (header rest : List Byte)
    (hlen : header.length = 80) (hr : h.InRange)
    (hv : h.majorVersion = 5 ∨ h.majorVersion = 6) (hs : h.sanity_check = .ok ()) :
    self.read (h.write header ++ rest) = ⟨h, rest, none⟩ := by
  have hob := Fileheader.ofBytes_write h header rest hlen hr
  have hw := Fileheader.write_slices h header hlen
  have h80 := hw.1
  have hmagic : fieldAt (h.write header ++ rest) 0 4 = Fileheader.zimMagic := by
    rw [fieldAt_append_left _ _ _ _ (by omega), fieldAt, List.drop_zero, hw.2.2.1,
      fromLittleEndian_toLittleEndian _ _ (by decide)]
  have hmaj : fieldAt (h.write header ++ rest) 4 2 = h.majorVersion := by
    have := congrArg Fileheader.majorVersion hob
    simpa [Fileheader.ofBytes] using this
  rw [Fileheader.read_parsed self _ (by simp [h80]) hmagic (by rw [hmaj]; exact hv), hob, hs]
  simp [← h80]

/-- `sampleHeader` is read back from its 80 bytes, with two more bytes left in the
stream. -/
theorem Fileheader.read_write_witness :
    sampleHeader.InRange
    ∧ Fileheader.read unbalancedHeader (sampleHeader.write zeroBuffer ++ [7, 7])
        = ⟨sampleHeader, [7, 7], none⟩ :=
  ⟨by decide, Fileheader.read_write sampleHeader unbalancedHeader zeroBuffer [7, 7] rfl
    (by decide) (Or.inl rfl) rfl⟩

/-- C3: for every header, `write` emits exactly 80 bytes: the little-endian magic
`0x044d495a` at 0-3, `majorVersion` at 4-5, `minorVersion` at 6-7, the 16 uuid
bytes at 8-23, `articleCount` at 24-27, `clusterCount` at 28-31, `urlPtrPos` at
32-39, `titleIdxPos` at 40-47, `clusterPtrPos` at 48-55, `mimeListPos` at 56-63,
`mainPage` at 64-67, `layoutPage` at 68-71, `checksumPos` at 72-79, each integer
little-endian; no byte keeps what the local buffer held before, so the output is
the same whatever the buffer held. -/
theorem Fileheader.write_layout (self : Fileheader) (header : List Byte)
    (hlen : header.length = 80) :
    (self.write header).length = 80
    ∧ (self.write header).take 4 = [0x5a, 0x49, 0x4d, 0x04]
    ∧ (self.write header).take 4 = toLittleEndian Fileheader.zimMagic 4
    ∧ ((self.write header).drop 4).take 2 = toLittleEndian self.majorVersion 2
    ∧ ((self.write header).drop 6).take 2 = toLittleEndian self.minorVersion 2
    ∧ ((self.write header).drop 8).take 16 = self.uuid.data
    ∧ ((self.write header).drop 24).take 4 = toLittleEndian self.articleCount 4
    ∧ ((self.write header).drop 28).take 4 = toLittleEndian self.clusterCount 4
    ∧ ((self.write header).drop 32).take 8 = toLittleEndian self.urlPtrPos 8
    ∧ ((self.write header).drop 40).take 8 = toLittleEndian self.titleIdxPos 8
    ∧ ((self.write header).drop 48).take 8 = toLittleEndian self.clusterPtrPos 8
    ∧ ((self.write header).drop 56).take 8 = toLittleEndian self.mimeListPos 8
    ∧ ((self.write header).drop 64).take 4 = toLittleEndian self.mainPage 4
    ∧ ((self.write header).drop 68).take 4 = toLittleEndian self.layoutPage 4
    ∧ ((self.write header).drop 72).take 8 = toLittleEndian self.checksumPos 8
    ∧ ∀ header2 : List Byte, header2.length = 80 →
        self.write header2 = self.write header :=
  Fileheader.write_slices self header hlen

/-- The output of `write` for `unbalancedHeader` over a zeroed buffer. -/
theorem Fileheader.write_layout_witness :
    zeroBuffer.length = 80 ∧ (unbalancedHeader.write zeroBuffer).length = 80
    ∧ (unbalancedHeader.write zeroBuffer).take 4 = [0x5a, 0x49, 0x4d, 0x04] :=
  ⟨rfl, (Fileheader.write_layout unbalancedHeader zeroBuffer rfl).1,
    (Fileheader.write_layout unbalancedHeader zeroBuffer rfl).2.1⟩

/-- C4: whenever `read` throws nothing, the stream held at least 80 bytes, `read`
has consumed exactly the first 80 of them, and every field of the object is the
little-endian value of the bytes at the offset and width that `write` uses for
it (the uuid is the 16 bytes at offset 8). -/
theorem Fileheader.read_layout (self : Fileheader) (ds : IDataStream)
    (hok : (self.read ds).thrown = none) :
    80 ≤ ds.length
    ∧ (self.read ds).ds = ds.drop 80
    ∧ (self.read ds).self.majorVersion = fromLittleEndian ((ds.drop 4).take 2)
    ∧ (self.read ds).self.minorVersion = fromLittleEndian ((ds.drop 6).take 2)
    ∧ (self.read ds).self.uuid.data = (ds.drop 8).take 16
    ∧ (self.read ds).self.articleCount = fromLittleEndian ((ds.drop 24).take 4)
    ∧ (self.read ds).self.clusterCount = fromLittleEndian ((ds.drop 28).take 4)
    ∧ (self.read ds).self.urlPtrPos = fromLittleEndian ((ds.drop 32).take 8)
    ∧ (self.read ds).self.titleIdxPos = fromLittleEndian ((ds.drop 40).take 8)
    ∧ (self.read ds).self.clusterPtrPos = fromLittleEndian ((ds.drop 48).take 8)
    ∧ (self.read ds).self.mimeListPos = fromLittleEndian ((ds.drop 56).take 8)
    ∧ (self.read ds).self.mainPage = fromLittleEndian ((ds.drop 64).take 4)
    ∧ (self.read ds).self.layoutPage = fromLittleEndian ((ds.drop 68).take 4)
    ∧ (self.read ds).self.checksumPos = fromLittleEndian ((ds.drop 72).take 8) := by
  have hlen : 80 ≤ ds.length := by
    by_contra hc
    exact Fileheader.read_short self ds (by omega) hok
  by_cases hmagic : fieldAt ds 0 4 = Fileheader.zimMagic
  · by_cases hmajor : fieldAt ds 4 2 = 5 ∨ fieldAt ds 4 2 = 6
    · rw [Fileheader.read_parsed self ds hlen hmagic hmajor]
      refine ⟨hlen, rfl, rfl, rfl, ?_, rfl, rfl, rfl, rfl, rfl, rfl, rfl, rfl, rfl⟩
      have h16 : ((ds.drop 8).take 16).length = 16 := by
        simp only [List.length_take, List.length_drop]; omega
      exact congrArg Uuid.data (Uuid.copyFrom_data Uuid.zero ⟨_, h16⟩)
    · rw [Fileheader.read_bad_version self ds (by omega) hmagic (by omega)] at hok
      simp at hok
  · rw [Fileheader.read_bad_magic self ds (by omega) hmagic] at hok
    simp at hok

/-- `read` succeeds on `sampleBytes` and consumes all 80 of them. -/
theorem Fileheader.read_layout_witness :
    (Fileheader.read unbalancedHeader sampleBytes).thrown = none
    ∧ 80 ≤ sampleBytes.length
    ∧ (Fileheader.read unbalancedHeader sampleBytes).ds = sampleBytes.drop 80 :=
  ⟨by decide, (Fileheader.read_layout unbalancedHeader sampleBytes (by decide)).1,
    (Fileheader.read_layout unbalancedHeader sampleBytes (by decide)).2.1⟩

/-- C5: `sanity_check` succeeds exactly when `articleCount = 0` iff
`clusterCount = 0`, `mimeListPos` is 80 or 72, `urlPtrPos`, `titleIdxPos` and
`clusterPtrPos` are at least `mimeListPos`, `clusterCount <= articleCount`, and
`checksumPos` is 0 or at least `mimeListPos`; it either succeeds or throws a
`ZimFileFormatError`. -/
theorem Fileheader.sanity_check_ok_iff (h : Fileheader) :
    (h.sanity_check = .ok ()
      ↔ ((h.articleCount = 0 ↔ h.clusterCount = 0)
        ∧ (h.mimeListPos = 80 ∨ h.mimeListPos = 72)
        ∧ h.urlPtrPos ≥ h.mimeListPos
        ∧ h.titleIdxPos ≥ h.mimeListPos
        ∧ h.clusterPtrPos ≥ h.mimeListPos
        ∧ h.clusterCount ≤ h.articleCount
        ∧ (h.checksumPos = 0 ∨ h.checksumPos ≥ h.mimeListPos)))
    ∧ (h.sanity_check = .ok () ∨ ∃ e : ZimFileFormatError, h.sanity_check = .error e) := by
  constructor
  · unfold Fileheader.sanity_check
    simp only [Fileheader.size]
    by_cases ha : h.articleCount = 0 <;> by_cases hc : h.clusterCount = 0 <;>
      simp only [ha, hc, ne_eq, not_true_eq_false, not_false_eq_true, decide_True,
        decide_False, Bool.not_true, Bool.not_false, bne_self_eq_false, Bool.false_eq_true,
        if_false, if_true, bne_iff_ne] <;>
      repeat' split
    all_goals simp at *
    all_goals omega
  · cases hs : h.sanity_check with
    | error e => exact Or.inr ⟨e, rfl⟩
    | ok u => exact Or.inl rfl

/-- C6: when the first four bytes of the stream do not decode to the magic
`0x044d495a`, `read` throws "Invalid magic number" with the stream positioned
right after those four bytes and the object untouched, whatever follows them
(nothing at all, fewer than 76 bytes, or fields that are invalid too). -/
theorem Fileheader.read_magic_mismatch (self : Fileheader) (magic rest : List Byte)
    (hlen : magic.length = 4) (hmagic : fromLittleEndian magic ≠ Fileheader.zimMagic) :
    self.read (magic ++ rest) = ⟨self, rest, some (.format .invalidMagicNumber)⟩ := by
  have h := Fileheader.read_bad_magic self (magic ++ rest) (by simp [hlen])
    (by simpa [fieldAt, hlen] using hmagic)
  simpa [hlen] using h

/-- A magic whose last byte is 5 instead of 4 is rejected before the three bytes
that follow are looked at. -/
theorem Fileheader.read_magic_mismatch_witness :
    fromLittleEndian [0x5a, 0x49, 0x4d, 0x05] ≠ Fileheader.zimMagic
    ∧ Fileheader.read sampleHeader ([0x5a, 0x49, 0x4d, 0x05] ++ [5, 0, 9])
        = ⟨sampleHeader, [5, 0, 9], some (.format .invalidMagicNumber)⟩ :=
  ⟨by decide,
    Fileheader.read_magic_mismatch sampleHeader [0x5a, 0x49, 0x4d, 0x05] [5, 0, 9] rfl
      (by decide)⟩

/-- C7: on an input with the right magic and at least the two bytes of the major
version, `read` throws "Invalid version" exactly when the 16-bit value at offset 4
is neither 5 nor 6, and then it does so right after those two bytes, whatever
follows; a major version 5 or 6 on an input of at least 80 bytes leads to the
parse of all fields and to the outcome of `sanity_check` on them. -/
theorem Fileheader.read_version_gate (self : Fileheader) (ds : IDataStream)
    (hlen : 6 ≤ ds.length) (hmagic : fieldAt ds 0 4 = Fileheader.zimMagic) :
    ((self.read ds).thrown = some (.format .invalidVersion)
      ↔ (fieldAt ds 4 2 ≠ 5 ∧ fieldAt ds 4 2 ≠ 6))
    ∧ ((fieldAt ds 4 2 ≠ 5 ∧ fieldAt ds 4 2 ≠ 6) →
        self.read ds = ⟨self, ds.drop 6, some (.format .invalidVersion)⟩)
    ∧ ((fieldAt ds 4 2 = 5 ∨ fieldAt ds 4 2 = 6) → 80 ≤ ds.length →
        (self.read ds).self = Fileheader.ofBytes ds
        ∧ (self.read ds).thrown
          = match (Fileheader.ofBytes ds).sanity_check with
            | .error e => some (.format e)
            | .ok _ => none) := by
  refine ⟨⟨?_, ?_⟩, ?_, ?_⟩
  · intro ht
    by_contra hc
    have hmajor : fieldAt ds 4 2 = 5 ∨ fieldAt ds 4 2 = 6 := by omega
    by_cases h80 : 80 ≤ ds.length
    · rw [Fileheader.read_parsed self ds h80 hmagic hmajor] at ht
      cases hs : (Fileheader.ofBytes ds).sanity_check with
      | error e =>
        rw [hs] at ht
        simp only [Option.some.injEq, ReadError.format.injEq] at ht
        exact sanity_check_ne_invalidVersion _ (ht ▸ hs)
      | ok u =>
        rw [hs] at ht
        simp at ht
    · rw [Fileheader.read_truncated self ds hlen (by omega) hmagic hmajor] at ht
      simp at ht
  · intro hbad
    rw [Fileheader.read_bad_version self ds hlen hmagic hbad]
  · intro hbad
    exact Fileheader.read_bad_version self ds hlen hmagic hbad
  · intro hmajor h80
    rw [Fileheader.read_parsed self ds h80 hmagic hmajor]
    exact ⟨rfl, rfl⟩

/-- Major version 7 behind the right magic is rejected, one byte is left unread. -/
theorem Fileheader.read_version_gate_witness :
    fieldAt [0x5a, 0x49, 0x4d, 0x04, 7, 0, 1] 0 4 = Fileheader.zimMagic
    ∧ Fileheader.read sampleHeader [0x5a, 0x49, 0x4d, 0x04, 7, 0, 1]
        = ⟨sampleHeader, [1], some (.format .invalidVersion)⟩ :=
  ⟨by decide,
    (Fileheader.read_version_gate sampleHeader [0x5a, 0x49, 0x4d, 0x04, 7, 0, 1]
      (by decide) (by decide)).2.1 (by decide)⟩

/-- C8: an input of at least 80 bytes with the right magic and major version 5 or
6 whose `articleCount` is 0 while `clusterCount` is not, or the other way round,
makes `read` throw the format error "No article <=> No cluster", whatever the
other fields hold. -/
theorem Fileheader.read_count_mismatch (self : Fileheader) (ds : IDataStream)
    (hlen : 80 ≤ ds.length) (hmagic : fieldAt ds 0 4 = Fileheader.zimMagic)
    (hmajor : fieldAt ds 4 2 = 5 ∨ fieldAt ds 4 2 = 6)
    (hcount : (fieldAt ds 24 4 = 0 ∧ fieldAt ds 28 4 ≠ 0)
      ∨ (fieldAt ds 24 4 ≠ 0 ∧ fieldAt ds 28 4 = 0)) :
    (self.read ds).thrown = some (.format .noArticleNoCluster) := by
  rw [Fileheader.read_parsed self ds hlen hmagic hmajor]
  have hs : (Fileheader.ofBytes ds).sanity_check = .error .noArticleNoCluster := by
    unfold Fileheader.sanity_check
    simp only [Fileheader.ofBytes]
    rcases hcount with ⟨ha, hc⟩ | ⟨ha, hc⟩ <;> simp [ha, hc]
  simp [hs]

/-- `unbalancedBytes` has one article and no cluster and is rejected. -/
theorem Fileheader.read_count_mismatch_witness :
    (fieldAt unbalancedBytes 24 4 ≠ 0 ∧ fieldAt unbalancedBytes 28 4 = 0)
    ∧ (Fileheader.read sampleHeader unbalancedBytes).thrown
        = some (.format .noArticleNoCluster) :=
  ⟨by decide,
    Fileheader.read_count_mismatch sampleHeader unbalancedBytes (by decide) (by decide)
      (by decide) (Or.inr (by decide))⟩

/-- C9: an input of at least 80 bytes with the right magic and major version 5 or
6 whose `urlPtrPos` is below its `mimeListPos` makes `read` throw a format error
(the one of the first violated check: counts, `mimeListPos`, or `urlPtrPos`);
when `urlPtrPos` equals `mimeListPos` the `urlPtrPos` check does not throw. -/
theorem Fileheader.read_urlPtrPos_below (self : Fileheader) (ds : IDataStream)
    (hlen : 80 ≤ ds.length) (hmagic : fieldAt ds 0 4 = Fileheader.zimMagic)
    (hmajor : fieldAt ds 4 2 = 5 ∨ fieldAt ds 4 2 = 6) :
    (fieldAt ds 32 8 < fieldAt ds 56 8 →
      (self.read ds).thrown = some (.format .noArticleNoCluster)
      ∨ (self.read ds).thrown = some (.format .mimelistPosMustBe80)
      ∨ (self.read ds).thrown = some (.format .urlPtrPos))
    ∧ (fieldAt ds 32 8 = fieldAt ds 56 8 →
      (self.read ds).thrown ≠ some (.format .urlPtrPos)) := by
  rw [Fileheader.read_parsed self ds hlen hmagic hmajor]
  constructor
  · intro hlt
    have hs : (Fileheader.ofBytes ds).sanity_check = .error .noArticleNoCluster
        ∨ (Fileheader.ofBytes ds).sanity_check = .error .mimelistPosMustBe80
        ∨ (Fileheader.ofBytes ds).sanity_check = .error .urlPtrPos := by
      unfold Fileheader.sanity_check
      simp only [Fileheader.ofBytes]
      repeat' split
      all_goals simp at *
    rcases hs with hs | hs | hs <;> simp [hs]
  · intro heq
    have hs : (Fileheader.ofBytes ds).sanity_check ≠ .error .urlPtrPos := by
      unfold Fileheader.sanity_check
      simp only [Fileheader.ofBytes]
      repeat' split
      all_goals simp at *
      all_goals omega
    cases hc : (Fileheader.ofBytes ds).sanity_check with
    | error e =>
      simp only [Option.some.injEq, ReadError.format.injEq, ne_eq]
      intro he
      exact hs (by rw [hc, he])
    | ok u => simp

/-- `urlBelowBytes` has `urlPtrPos` 79 below `mimeListPos` 80 and is rejected. -/
theorem Fileheader.read_urlPtrPos_below_witness :
    fieldAt urlBelowBytes 32 8 < fieldAt urlBelowBytes 56 8
    ∧ ((Fileheader.read sampleHeader urlBelowBytes).thrown
          = some (.format .noArticleNoCluster)
      ∨ (Fileheader.read sampleHeader urlBelowBytes).thrown
          = some (.format .mimelistPosMustBe80)
      ∨ (Fileheader.read sampleHeader urlBelowBytes).thrown = some (.format .urlPtrPos)) :=
  ⟨by decide,
    (Fileheader.read_urlPtrPos_below sampleHeader urlBelowBytes (by decide) (by decide)
      (by decide)).1 (by decide)⟩

/-- C10 as stated fails: on the 80 bytes of a header with one article and no
cluster, `read` throws "No article <=> No cluster" from `sanity_check` after every
setter has run, and the object it was called on no longer holds what it held
before the call but the fields of the rejected input. -/
theorem Fileheader.read_not_atomic :
    (Fileheader.read sampleHeader unbalancedBytes).thrown
        = some (.format .noArticleNoCluster)
    ∧ (Fileheader.read sampleHeader unbalancedBytes).self ≠ sampleHeader
    ∧ (Fileheader.read sampleHeader unbalancedBytes).self = unbalancedHeader := by
  decide

/-- C10, amended: when `read` throws "Invalid magic number" or "Invalid version",
the object it was called on has the field values it had before the call; when an
input of at least 80 bytes with the right magic and major version 5 or 6 fails
`sanity_check`, the object holds the fields decoded from the input. -/
theorem Fileheader.read_failure_state (self : Fileheader) (ds : IDataStream) :
    (((self.read ds).thrown = some (.format .invalidMagicNumber)
        ∨ (self.read ds).thrown = some (.format .invalidVersion)) →
      (self.read ds).self = self)
    ∧ (∀ e : ZimFileFormatError, (self.read ds).thrown = some (.format e) →
        e ≠ .invalidMagicNumber → e ≠ .invalidVersion →
        80 ≤ ds.length ∧ (self.read ds).self = Fileheader.ofBytes ds
        ∧ (Fileheader.ofBytes ds).sanity_check = .error e) := by
  by_cases h4 : ds.length < 4
  · rw [Fileheader.read_no_magic self ds h4]
    simp
  by_cases hmagic : fieldAt ds 0 4 = Fileheader.zimMagic
  swap
  · rw [Fileheader.read_bad_magic self ds (by omega) hmagic]
    simp
  by_cases h6 : ds.length < 6
  · rw [Fileheader.read_no_version self ds (by omega) h6 hmagic]
    simp
  by_cases hmajor : fieldAt ds 4 2 = 5 ∨ fieldAt ds 4 2 = 6
  swap
  · rw [Fileheader.read_bad_version self ds (by omega) hmagic (by omega)]
    simp
  by_cases h80 : ds.length < 80
  · have ht := Fileheader.read_truncated self ds (by omega) h80 hmagic hmajor
    rw [ht]
    simp
  rw [Fileheader.read_parsed self ds (by omega) hmagic hmajor]
  cases hs : (Fileheader.ofBytes ds).sanity_check with
  | error e =>
    have h1 := sanity_check_ne_invalidMagicNumber (Fileheader.ofBytes ds)
    have h2 := sanity_check_ne_invalidVersion (Fileheader.ofBytes ds)
    rw [hs] at h1 h2
    simp only [ne_eq, Except.error.injEq] at h1 h2
    simp only [Option.some.injEq, ReadError.format.injEq]
    refine ⟨?_, ?_⟩
    · rintro (h | h)
      · exact absurd h h1
      · exact absurd h h2
    · intro e1 he _ _
      subst he
      exact ⟨by omega, trivial, rfl⟩
  | ok u => simp

/-- A read that fails on the magic leaves `sampleHeader` as it was. -/
theorem Fileheader.read_failure_state_witness :
    (Fileheader.read sampleHeader [0, 0, 0, 0, 5]).thrown
        = some (.format .invalidMagicNumber)
    ∧ (Fileheader.read sampleHeader [0, 0, 0, 0, 5]).self = sampleHeader :=
  ⟨by decide,
    (Fileheader.read_failure_state sampleHeader [0, 0, 0, 0, 5]).1 (Or.inl (by decide))⟩

/-! ## The cluster codec: round trip of `dump` and the reader -/

theorem foldl_addData (comp : CompressionType) (acc blobs : List (List Byte)) :
    blobs.foldl writer.Cluster.addData ⟨comp, acc⟩ = ⟨comp, acc ++ blobs⟩ := by
  induction blobs generalizing acc with
  | nil => simp
  | cons b bs ih => simp [List.foldl_cons, writer.Cluster.addData, ih]

theorem foldl_addData_new (comp : CompressionType) (blobs : List (List Byte)) :
    blobs.foldl writer.Cluster.addData (writer.Cluster.new comp) = ⟨comp, blobs⟩ := by
  simpa [writer.Cluster.new] using foldl_addData comp [] blobs

theorem ofNat_infoByte (comp : CompressionType) (ext : Bool) :
    CompressionType.ofNat? ((infoByte comp ext).val % 16) = some comp := by
  cases comp <;> cases ext <;> rfl

theorem extended_infoByte (comp : CompressionType) (ext : Bool) :
    decide ((infoByte comp ext).val / 16 % 2 = 1) = ext := by
  cases comp <;> cases ext <;> rfl

theorem offsetWidth_pos (ext : Bool) : 0 < offsetWidth ext := by
  cases ext <;> simp [offsetWidth]

theorem flatten_chunk (chunks : List (List Byte)) (w i : Nat)
    (hw : ∀ c ∈ chunks, c.length = w) (hi : i < chunks.length) :
    ((chunks.flatten).drop (i * w)).take w = chunks[i] := by
  induction chunks generalizing i with
  | nil => simp at hi
  | cons c cs ih =>
    have hc : c.length = w := hw c (by simp)
    cases i with
    | zero =>
      simp only [List.flatten_cons, Nat.zero_mul, List.drop_zero, List.getElem_cons_zero]
      exact List.take_left' hc
    | succ i =>
      have hcs : ∀ c ∈ cs, c.length = w := fun c hc => hw c (by simp [hc])
      have hi2 : i < cs.length := by simpa using hi
      have e : (i + 1) * w = c.length + i * w := by rw [hc, Nat.succ_mul, Nat.add_comm]
      simp only [List.flatten_cons, List.getElem_cons_succ, e, List.drop_append]
      exact ih i hcs hi2

theorem length_flatten_chunks (chunks : List (List Byte)) (w : Nat)
    (hw : ∀ c ∈ chunks, c.length = w) : chunks.flatten.length = chunks.length * w := by
  induction chunks with
  | nil => simp
  | cons c cs ih =>
    have hc : c.length = w := hw c (by simp)
    have hcs : ∀ c ∈ cs, c.length = w := fun c hc => hw c (by simp [hc])
    simp only [List.flatten_cons, List.length_append, List.length_cons, ih hcs, hc,
      Nat.succ_mul]
    omega

theorem flatten_slice (L : List (List Byte)) (i : Nat) (h : i < L.length) :
    (L.flatten.drop ((L.map List.length).take i).sum).take (L[i].length) = L[i] := by
  rw [List.drop_sum_flatten, List.drop_eq_getElem_cons h, List.flatten_cons]
  exact List.take_left _ _

theorem sum_take_le (l : List Nat) (i : Nat) : (l.take i).sum ≤ l.sum := by
  induction l generalizing i with
  | nil => simp
  | cons a as ih =>
    cases i with
    | zero => simp
    | succ i => simpa using ih i

theorem sum_take_succ_length (L : List (List Byte)) (i : Nat) (h : i < L.length) :
    ((L.map List.length).take (i + 1)).sum
      = ((L.map List.length).take i).sum + L[i].length := by
  induction L generalizing i with
  | nil => simp at h
  | cons a as ih =>
    cases i with
    | zero => simp
    | succ i =>
      have h2 : i < as.length := by simpa using h
      simp only [List.map_cons, List.take_succ_cons, List.sum_cons, List.getElem_cons_succ,
        ih i h2]
      omega
theorem sum_take_mono (l : List Nat) (i j : Nat) (h : i ≤ j) :
    (l.take i).sum ≤ (l.take j).sum := by
  induction l generalizing i j with
  | nil => simp
  | cons a as ih =>
    cases i with
    | zero => simp
    | succ i =>
      cases j with
      | zero => omega
      | succ j =>
        simp only [List.take_succ_cons, List.sum_cons]
        have := ih i j (by omega)
        omega

theorem length_offsetTable (c : writer.Cluster) :
    c.offsetTable.length = (c.blobs.length + 1) * offsetWidth c.is_extended := by
  unfold writer.Cluster.offsetTable
  simp only []
  rw [length_flatten_chunks _ (offsetWidth c.is_extended)]
  · simp [writer.Cluster.blobOffsets]
  · intro ch hch
    simp only [List.mem_map] at hch
    obtain ⟨o, -, rfl⟩ := hch
    simp

theorem fieldAt_offsetTable (c : writer.Cluster) (payload : List Byte) (i : Nat)
    (hi : i < c.blobs.length + 1)
    (hfit : c.size + (c.blobs.length + 1) * offsetWidth c.is_extended
      < 256 ^ offsetWidth c.is_extended) :
    fieldAt (c.offsetTable ++ payload) (i * offsetWidth c.is_extended)
        (offsetWidth c.is_extended)
      = ((c.blobs.map List.length).take i).sum
        + (c.blobs.length + 1) * offsetWidth c.is_extended := by
  have hlen := length_offsetTable c
  have hle : i * offsetWidth c.is_extended + offsetWidth c.is_extended
      ≤ c.offsetTable.length := by
    rw [hlen, ← Nat.succ_mul]
    exact Nat.mul_le_mul_right _ hi
  rw [fieldAt_append_left _ _ _ _ hle, fieldAt]
  unfold writer.Cluster.offsetTable
  simp only []
  rw [flatten_chunk _ (offsetWidth c.is_extended) i]
  · simp only [writer.Cluster.blobOffsets, List.map_map, List.getElem_map,
      List.getElem_range, Function.comp]
    apply fromLittleEndian_toLittleEndian
    have := sum_take_le (c.blobs.map List.length) i
    unfold writer.Cluster.size at hfit
    omega
  · intro ch hch
    simp only [List.mem_map] at hch
    obtain ⟨o, -, rfl⟩ := hch
    simp
  · simp [writer.Cluster.blobOffsets, hi]
theorem read_header_offsetTable (c : writer.Cluster) (payload : List Byte)
    (hfit : c.size + (c.blobs.length + 1) * offsetWidth c.is_extended
      < 256 ^ offsetWidth c.is_extended) :
    Cluster.read_header (c.offsetTable ++ payload) c.is_extended
      = some ((List.range (c.blobs.length + 1)).map fun i =>
          ((c.blobs.map List.length).take i).sum
            + (c.blobs.length + 1) * offsetWidth c.is_extended) := by
  have hw := offsetWidth_pos c.is_extended
  have hlen := length_offsetTable c
  have h0 := fieldAt_offsetTable c payload 0 (by omega) hfit
  simp only [Nat.zero_mul, List.take_zero, List.sum_nil, Nat.zero_add] at h0
  have hn : (c.blobs.length + 1) * offsetWidth c.is_extended / offsetWidth c.is_extended
      = c.blobs.length + 1 := Nat.mul_div_cancel _ hw
  have hge : offsetWidth c.is_extended
      ≤ (c.blobs.length + 1) * offsetWidth c.is_extended := by
    rw [Nat.succ_mul]; omega
  have h1 : ¬ (c.offsetTable ++ payload).length < offsetWidth c.is_extended := by
    simp only [List.length_append, hlen]; omega
  have h2 : ¬ (c.blobs.length + 1 = 0
      ∨ (c.offsetTable ++ payload).length
          < (c.blobs.length + 1) * offsetWidth c.is_extended) := by
    simp only [List.length_append, hlen]; omega
  have h3 : ((List.range (c.blobs.length + 1)).map fun i =>
        fieldAt (c.offsetTable ++ payload) (i * offsetWidth c.is_extended)
          (offsetWidth c.is_extended))
      = (List.range (c.blobs.length + 1)).map fun i =>
          ((c.blobs.map List.length).take i).sum
            + (c.blobs.length + 1) * offsetWidth c.is_extended := by
    apply List.map_congr_left
    intro i hi
    exact fieldAt_offsetTable c payload i (List.mem_range.mp hi) hfit
  have h4 : ((List.range (c.blobs.length + 1)).map fun i =>
        ((c.blobs.map List.length).take i).sum
          + (c.blobs.length + 1) * offsetWidth c.is_extended).Chain' (· ≤ ·) := by
    apply List.Pairwise.chain'
    rw [List.pairwise_map]
    refine List.Pairwise.imp ?_ (List.pairwise_lt_range _)
    intro a b hab
    have := sum_take_mono (c.blobs.map List.length) a b (Nat.le_of_lt hab)
    omega
  unfold Cluster.read_header
  simp only [h0, hn, h1, h2, h3, h4, if_false, if_true]

theorem sub_clusterReader_dump (c : writer.Cluster) (provider : CompressionType → Codec)
    (hcodec : c.compression ≠ .zimcompNone → (provider c.compression).Lossless) :
    sub_clusterReader provider (c.dump provider)
      = some (c.offsetTable ++ c.blobs.flatten, c.compression, c.is_extended) := by
  unfold sub_clusterReader writer.Cluster.dump
  simp only [ofNat_infoByte, extended_infoByte]
  by_cases hc : c.compression = .zimcompNone
  · simp [hc]
  · simp [hc, hcodec hc _]

theorem getElem?_offsets (L : List (List Byte)) (delta i : Nat) (hi : i < L.length + 1) :
    ((List.range (L.length + 1)).map fun i =>
        ((L.map List.length).take i).sum + delta).get? i
      = some (((L.map List.length).take i).sum + delta) := by
  simp [List.getElem?_range hi]
theorem length_le_sum_map_length (L : List (List Byte)) (b : List Byte) (hb : b ∈ L) :
    b.length ≤ (L.map List.length).sum := by
  induction L with
  | nil => simp at hb
  | cons a as ih =>
    simp only [List.mem_cons] at hb
    simp only [List.map_cons, List.sum_cons]
    rcases hb with rfl | hb
    · omega
    · have := ih hb
      omega

theorem is_extended_eq (c : writer.Cluster) :
    c.is_extended = decide (2 ^ 32 ≤ (c.blobs.map List.length).sum) := by
  unfold writer.Cluster.is_extended writer.Cluster.size
  by_cases h : 2 ^ 32 ≤ (c.blobs.map List.length).sum
  · simp only [h, decide_True, Bool.true_or]
  · simp only [h, decide_False, Bool.false_or]
    rw [List.any_eq_false]
    intro b hb
    have := length_le_sum_map_length c.blobs b hb
    simp only [decide_eq_true_eq]
    omega

theorem fits_of_bounds (c : writer.Cluster)
    (h32 : (c.blobs.map List.length).sum < 2 ^ 32 →
      (c.blobs.map List.length).sum + 4 * (c.blobs.length + 1) < 2 ^ 32)
    (h64 : (c.blobs.map List.length).sum + 8 * (c.blobs.length + 1) < 2 ^ 64) :
    c.size + (c.blobs.length + 1) * offsetWidth c.is_extended
      < 256 ^ offsetWidth c.is_extended := by
  rw [is_extended_eq]
  unfold writer.Cluster.size
  by_cases h : 2 ^ 32 ≤ (c.blobs.map List.length).sum
  · simp only [h, decide_True, offsetWidth, if_true]
    norm_num at h64 ⊢
    omega
  · simp only [h, decide_False, offsetWidth, Bool.false_eq_true, if_false]
    have := h32 (by omega)
    norm_num at this ⊢
    omega

theorem round_trip_of_fit (c : writer.Cluster) (provider : CompressionType → Codec)
    (hcodec : c.compression ≠ .zimcompNone → (provider c.compression).Lossless)
    (hfit : c.size + (c.blobs.length + 1) * offsetWidth c.is_extended
      < 256 ^ offsetWidth c.is_extended) :
    ∃ (reader : List Byte) (cluster2 : Cluster),
      sub_clusterReader provider (c.dump provider)
        = some (reader, c.compression, c.is_extended)
      ∧ Cluster.create reader c.compression c.is_extended = some cluster2
      ∧ cluster2.count = c.blobs.length
      ∧ cluster2.getCompression = c.compression
      ∧ ∀ (i : Nat) (hi : i < c.blobs.length),
          cluster2.getBlobSize i = some (c.blobs[i]).length
          ∧ cluster2.getBlob i = some c.blobs[i] := by
  have hrh := read_header_offsetTable c c.blobs.flatten hfit
  refine ⟨c.offsetTable ++ c.blobs.flatten,
    ⟨c.compression, c.is_extended,
      (List.range (c.blobs.length + 1)).map fun i =>
        ((c.blobs.map List.length).take i).sum
          + (c.blobs.length + 1) * offsetWidth c.is_extended,
      c.offsetTable ++ c.blobs.flatten⟩,
    sub_clusterReader_dump c provider hcodec, ?_, ?_, rfl, ?_⟩
  · unfold Cluster.create
    rw [hrh]
  · simp [Cluster.count]
  · intro i hi
    have g0 := getElem?_offsets c.blobs
      ((c.blobs.length + 1) * offsetWidth c.is_extended) i (by omega)
    have g1 := getElem?_offsets c.blobs
      ((c.blobs.length + 1) * offsetWidth c.is_extended) (i + 1) (by omega)
    have hs := sum_take_succ_length c.blobs i hi
    have hlen := length_offsetTable c
    constructor
    · unfold Cluster.getBlobSize
      simp only [g0, g1, hs]
      congr 1
      omega
    · unfold Cluster.getBlob
      simp only [g0, g1, hs]
      have hle := sum_take_le (c.blobs.map List.length) (i + 1)
      rw [hs] at hle
      have hb : ((c.blobs.map List.length).take i).sum + (c.blobs[i]).length
            + (c.blobs.length + 1) * offsetWidth c.is_extended
          ≤ (c.offsetTable ++ c.blobs.flatten).length := by
        simp only [List.length_append, hlen, List.length_flatten]
        omega
      rw [if_pos hb]
      congr 1
      have e1 : ((c.blobs.map List.length).take i).sum
            + (c.blobs.length + 1) * offsetWidth c.is_extended
          = c.offsetTable.length + ((c.blobs.map List.length).take i).sum := by
        rw [hlen]; omega
      have e2 : ((c.blobs.map List.length).take i).sum + (c.blobs[i]).length
            + (c.blobs.length + 1) * offsetWidth c.is_extended
            - (c.offsetTable.length + ((c.blobs.map List.length).take i).sum)
          = (c.blobs[i]).length := by
        rw [hlen]; omega
      rw [e1, e2, List.drop_append]
      exact flatten_slice c.blobs i hi
theorem markProvider_lossless (comp : CompressionType) : (markProvider comp).Lossless := by
  intro d
  simp [markProvider]

/-- Where no serialized offset overflows its entry (payload plus offset table
below `2^32` bytes when the payload is below `2^32`, below `2^64` in any case)
and the provider of the compression is lossless, the bytes of `dump` read back
through `sub_clusterReader` and the reader cluster give the compression used,
the same `count()`, and for every `i` the same `getBlobSize(i)` and the same
bytes from `getBlob(i)`. -/
theorem cluster_round_trip (provider : CompressionType → Codec) (comp : CompressionType)
    (blobs : List (List Byte))
    (hcodec : comp ≠ .zimcompNone → (provider comp).Lossless)
    (h32 : (blobs.map List.length).sum < 2 ^ 32 →
      (blobs.map List.length).sum + 4 * (blobs.length + 1) < 2 ^ 32)
    (h64 : (blobs.map List.length).sum + 8 * (blobs.length + 1) < 2 ^ 64) :
    ∃ (reader : List Byte) (extended : Bool) (cluster2 : Cluster),
      sub_clusterReader provider
          ((blobs.foldl writer.Cluster.addData (writer.Cluster.new comp)).dump provider)
        = some (reader, comp, extended)
      ∧ Cluster.create reader comp extended = some cluster2
      ∧ cluster2.count = blobs.length
      ∧ cluster2.getCompression = comp
      ∧ ∀ (i : Nat) (hi : i < blobs.length),
          cluster2.getBlobSize i = some (blobs[i]).length
          ∧ cluster2.getBlob i = some blobs[i] := by
  rw [foldl_addData_new]
  obtain ⟨reader, cluster2, h1, h2, h3, h4, h5⟩ :=
    round_trip_of_fit ⟨comp, blobs⟩ provider hcodec (fits_of_bounds ⟨comp, blobs⟩ h32 h64)
  exact ⟨reader, _, cluster2, h1, h2, h3, h4, h5⟩

/-- The four `sampleBlobs` survive the round trip through an LZMA-tagged cluster
of the marking provider. -/
theorem cluster_round_trip_witness :
    (markProvider .zimcompLzma).Lossless
    ∧ ∃ (reader : List Byte) (extended : Bool) (cluster2 : Cluster),
      sub_clusterReader markProvider
          ((sampleBlobs.foldl writer.Cluster.addData
            (writer.Cluster.new .zimcompLzma)).dump markProvider)
        = some (reader, .zimcompLzma, extended)
      ∧ Cluster.create reader .zimcompLzma extended = some cluster2
      ∧ cluster2.count = sampleBlobs.length
      ∧ cluster2.getCompression = .zimcompLzma
      ∧ ∀ (i : Nat) (hi : i < sampleBlobs.length),
          cluster2.getBlobSize i = some (sampleBlobs[i]).length
          ∧ cluster2.getBlob i = some sampleBlobs[i] :=
  ⟨markProvider_lossless _,
    cluster_round_trip markProvider .zimcompLzma sampleBlobs
      (fun _ => markProvider_lossless _) (by decide) (by decide)⟩

/-! ## The cluster codec: writer accounting, info byte, offset table -/

/-- C15: a new writer cluster has `count() == 0`; after any sequence of `addData`
calls `count()` is the number of calls and `getBlobSize(i)` is the size given to
call `i` for every `i < count()`; `getBlobSize` with an index at or beyond
`count()` fails (`IndexError`). -/
theorem writer.Cluster.accounting (comp : CompressionType) (blobs : List (List Byte)) :
    (writer.Cluster.new comp).count = 0
    ∧ (blobs.foldl writer.Cluster.addData (writer.Cluster.new comp)).count = blobs.length
    ∧ (∀ (i : Nat) (hi : i < blobs.length),
        (blobs.foldl writer.Cluster.addData (writer.Cluster.new comp)).getBlobSize i
          = some (blobs[i]).length)
    ∧ (∀ i : Nat,
        (blobs.foldl writer.Cluster.addData (writer.Cluster.new comp)).count ≤ i →
        (blobs.foldl writer.Cluster.addData (writer.Cluster.new comp)).getBlobSize i
          = none) := by
  rw [foldl_addData_new]
  refine ⟨rfl, rfl, ?_, ?_⟩
  · intro i hi
    simp [writer.Cluster.getBlobSize, List.getElem?_eq_getElem hi]
  · intro i hi
    have : blobs.length ≤ i := hi
    simp [writer.Cluster.getBlobSize, List.getElem?_eq_none this]

/-- The test `create_cluster` in small: three blobs of 3, 0 and 2 bytes. -/
theorem writer.Cluster.accounting_witness :
    ((([[1, 2, 3], [], [4, 5]] : List (List Byte)).foldl writer.Cluster.addData
        (writer.Cluster.new .zimcompNone)).count = 3)
    ∧ (([[1, 2, 3], [], [4, 5]] : List (List Byte)).foldl writer.Cluster.addData
        (writer.Cluster.new .zimcompNone)).getBlobSize 2 = some 2
    ∧ (([[1, 2, 3], [], [4, 5]] : List (List Byte)).foldl writer.Cluster.addData
        (writer.Cluster.new .zimcompNone)).getBlobSize 3 = none :=
  ⟨(writer.Cluster.accounting .zimcompNone [[1, 2, 3], [], [4, 5]]).2.1,
    (writer.Cluster.accounting .zimcompNone [[1, 2, 3], [], [4, 5]]).2.2.1 2 (by decide),
    (writer.Cluster.accounting .zimcompNone [[1, 2, 3], [], [4, 5]]).2.2.2 3 (by decide)⟩

theorem peekClusterHeader_dump (c : writer.Cluster) (provider : CompressionType → Codec) :
    peekClusterHeader (c.dump provider) = some (c.compression, c.is_extended) := by
  unfold peekClusterHeader writer.Cluster.dump
  simp only [ofNat_infoByte, extended_infoByte]

theorem toNat_of_ofNat (k : Nat) (comp : CompressionType)
    (h : CompressionType.ofNat? k = some comp) : comp.toNat = k := by
  unfold CompressionType.ofNat? at h
  split at h <;> simp at h <;> subst h <;> rfl

/-- C12: the peek of a cluster region reports the compression whose id is bits 0-3
of the leading byte and the extended flag that is bit 4 of it, and looks at no
other byte; `sub_clusterReader`, when it returns, reports the same two values;
the info byte `0x11` gives `zimcompNone` and extended; the info byte that `dump`
writes decodes to the compression and `is_extended()` of the writer. -/
theorem info_byte_decoding (provider : CompressionType → Codec) (b : Byte)
    (rest : List Byte) :
    (∀ rest2 : List Byte, peekClusterHeader (b :: rest2) = peekClusterHeader (b :: rest))
    ∧ (∀ comp extended, peekClusterHeader (b :: rest) = some (comp, extended) →
        comp.toNat = b.val % 16 ∧ (extended = true ↔ b.val / 16 % 2 = 1))
    ∧ (∀ reader comp extended,
        sub_clusterReader provider (b :: rest) = some (reader, comp, extended) →
        peekClusterHeader (b :: rest) = some (comp, extended))
    ∧ peekClusterHeader (0x11 :: rest) = some (.zimcompNone, true)
    ∧ sub_clusterReader provider (0x11 :: rest) = some (rest, .zimcompNone, true)
    ∧ (∀ c : writer.Cluster,
        peekClusterHeader (c.dump provider) = some (c.compression, c.is_extended)) := by
  refine ⟨fun _ => rfl, ?_, ?_, rfl, rfl, fun c => peekClusterHeader_dump c provider⟩
  · intro comp extended h
    unfold peekClusterHeader at h
    simp only at h
    split at h
    · simp at h
    · rename_i comp1 hc
      simp only [Option.some.injEq, Prod.mk.injEq] at h
      obtain ⟨rfl, rfl⟩ := h
      exact ⟨toNat_of_ofNat _ _ hc, by simp⟩
  · intro reader comp extended h
    unfold sub_clusterReader at h
    unfold peekClusterHeader
    simp only at h ⊢
    split at h
    · simp at h
    · rename_i comp1 hc
      split at h
      · simp only [Option.some.injEq, Prod.mk.injEq] at h
        obtain ⟨-, rfl, rfl⟩ := h
        rfl
      · split at h
        · simp at h
        · simp only [Option.some.injEq, Prod.mk.injEq] at h
          obtain ⟨-, rfl, rfl⟩ := h
          rfl

/-- The info byte `0x04` (LZMA, not extended) in front of a marked stream. -/
theorem info_byte_decoding_witness :
    sub_clusterReader markProvider [0x04, 0xfd, 7] = some ([7], .zimcompLzma, false)
    ∧ peekClusterHeader ([0x04, 0xfd, 7] : List Byte) = some (.zimcompLzma, false) :=
  ⟨by decide,
    (info_byte_decoding markProvider 0x04 [0xfd, 7]).2.2.1 [7] .zimcompLzma false
      (by decide)⟩

theorem offsetTable_eq_flatten (c : writer.Cluster) :
    c.offsetTable
      = (c.tableOffsets.map fun o => toLittleEndian o (offsetWidth c.is_extended)).flatten := by
  simp only [writer.Cluster.offsetTable, writer.Cluster.tableOffsets, List.map_map]
  rfl

theorem mem_tableOffsets_lt (c : writer.Cluster) (bound : Nat)
    (h : c.size + (c.blobs.length + 1) * offsetWidth c.is_extended < bound) :
    ∀ o ∈ c.tableOffsets, o < bound := by
  intro o ho
  simp only [writer.Cluster.tableOffsets, writer.Cluster.blobOffsets, List.map_map,
    List.mem_map, List.mem_range, Function.comp] at ho
  obtain ⟨i, -, rfl⟩ := ho
  have := sum_take_le (c.blobs.map List.length) i
  unfold writer.Cluster.size at h
  omega

/-- The flag and the width that the writer chooses: a writer cluster is extended
(`is_extended()` true, extended flag set in the info byte, 8-byte entries in the
offset table) if the total payload size or the size of one blob is at least
`2^32` bytes; it is not extended (flag clear, 4-byte entries) if the payload is
below `2^32` bytes, and where the payload and the offset table together are
below `2^32` bytes every offset to serialize is below `2^32`. -/
theorem extended_trigger (provider : CompressionType → Codec) (comp : CompressionType)
    (blobs : List (List Byte)) :
    ((2 ^ 32 ≤ (blobs.map List.length).sum ∨ ∃ b ∈ blobs, 2 ^ 32 ≤ b.length) →
      (blobs.foldl writer.Cluster.addData (writer.Cluster.new comp)).is_extended = true
      ∧ peekClusterHeader
          ((blobs.foldl writer.Cluster.addData (writer.Cluster.new comp)).dump provider)
          = some (comp, true)
      ∧ (blobs.foldl writer.Cluster.addData (writer.Cluster.new comp)).offsetTable
          = (((blobs.foldl writer.Cluster.addData
                (writer.Cluster.new comp)).tableOffsets).map
              fun o => toLittleEndian o 8).flatten
      ∧ (blobs.foldl writer.Cluster.addData (writer.Cluster.new comp)).offsetTable.length
          = (blobs.length + 1) * 8)
    ∧ ((blobs.map List.length).sum < 2 ^ 32 →
      (blobs.foldl writer.Cluster.addData (writer.Cluster.new comp)).is_extended = false
      ∧ peekClusterHeader
          ((blobs.foldl writer.Cluster.addData (writer.Cluster.new comp)).dump provider)
          = some (comp, false)
      ∧ (blobs.foldl writer.Cluster.addData (writer.Cluster.new comp)).offsetTable
          = (((blobs.foldl writer.Cluster.addData
                (writer.Cluster.new comp)).tableOffsets).map
              fun o => toLittleEndian o 4).flatten
      ∧ (blobs.foldl writer.Cluster.addData (writer.Cluster.new comp)).offsetTable.length
          = (blobs.length + 1) * 4
      ∧ ((blobs.map List.length).sum + 4 * (blobs.length + 1) < 2 ^ 32 →
          ∀ o ∈ (blobs.foldl writer.Cluster.addData
              (writer.Cluster.new comp)).tableOffsets, o < 2 ^ 32)) := by
  rw [foldl_addData_new]
  have hpeek := peekClusterHeader_dump ⟨comp, blobs⟩ provider
  have htab := offsetTable_eq_flatten ⟨comp, blobs⟩
  have hlen := length_offsetTable ⟨comp, blobs⟩
  have hext := is_extended_eq ⟨comp, blobs⟩
  simp only at hpeek htab hlen hext
  constructor
  · intro h
    have hsum : 2 ^ 32 ≤ (blobs.map List.length).sum := by
      rcases h with h | ⟨b, hb, hbl⟩
      · exact h
      · exact le_trans hbl (length_le_sum_map_length blobs b hb)
    have he : writer.Cluster.is_extended ⟨comp, blobs⟩ = true := by
      rw [hext]; exact decide_eq_true hsum
    rw [he] at hpeek htab hlen
    exact ⟨he, hpeek, htab, hlen⟩
  · intro h
    have he : writer.Cluster.is_extended ⟨comp, blobs⟩ = false := by
      rw [hext]; exact decide_eq_false (by omega)
    refine ⟨he, ?_, ?_, ?_, ?_⟩
    · rw [he] at hpeek; exact hpeek
    · rw [he] at htab; exact htab
    · rw [he] at hlen; exact hlen
    · intro hfit
      apply mem_tableOffsets_lt
      simp only [writer.Cluster.size, he, offsetWidth, Bool.false_eq_true, if_false]
      omega

/-- Four small blobs: the cluster is not extended and its offsets fit 32 bits. -/
theorem extended_trigger_witness :
    (sampleBlobs.map List.length).sum < 2 ^ 32
    ∧ (sampleBlobs.foldl writer.Cluster.addData
        (writer.Cluster.new .zimcompZstd)).is_extended = false
    ∧ peekClusterHeader
        ((sampleBlobs.foldl writer.Cluster.addData
          (writer.Cluster.new .zimcompZstd)).dump markProvider)
        = some (.zimcompZstd, false) :=
  ⟨by decide,
    ((extended_trigger markProvider .zimcompZstd sampleBlobs).2 (by decide)).1,
    ((extended_trigger markProvider .zimcompZstd sampleBlobs).2 (by decide)).2.1⟩

theorem chain_of_steps (e : Nat → Nat) (n : Nat) (h : ∀ i, i < n → e i ≤ e (i + 1)) :
    ((List.range (n + 1)).map e).Chain' (· ≤ ·) := by
  have mono : ∀ j, j ≤ n → ∀ i, i ≤ j → e i ≤ e j := by
    intro j
    induction j with
    | zero =>
      intro _ i hi
      have : i = 0 := by omega
      subst this
      exact Nat.le_refl _
    | succ j ih =>
      intro hj i hi
      by_cases hij : i = j + 1
      · subst hij; exact Nat.le_refl _
      · exact Nat.le_trans (ih (by omega) i (by omega)) (h j (by omega))
  apply List.Pairwise.chain'
  rw [List.pairwise_map]
  have hp := List.pairwise_lt_range (n + 1)
  rw [List.pairwise_iff_getElem] at hp ⊢
  intro i j hi hj hij
  simp only [List.length_range] at hi hj
  simp only [List.getElem_range]
  exact mono j (by omega) i (by omega)

theorem read_header_of_table (reader : List Byte) (extended : Bool) (n : Nat)
    (h1 : fieldAt reader 0 (offsetWidth extended) / offsetWidth extended = n + 1)
    (h2 : (n + 1) * offsetWidth extended ≤ reader.length)
    (h3 : ∀ i, i < n →
      fieldAt reader (i * offsetWidth extended) (offsetWidth extended)
        ≤ fieldAt reader ((i + 1) * offsetWidth extended) (offsetWidth extended)) :
    Cluster.read_header reader extended
      = some ((List.range (n + 1)).map fun i =>
          fieldAt reader (i * offsetWidth extended) (offsetWidth extended)) := by
  have hw := offsetWidth_pos extended
  have hge : offsetWidth extended ≤ (n + 1) * offsetWidth extended := by
    rw [Nat.succ_mul]; omega
  have c1 : ¬ reader.length < offsetWidth extended := by omega
  have c2 : ¬ (n + 1 = 0 ∨ reader.length < (n + 1) * offsetWidth extended) := by omega
  have c3 := chain_of_steps
    (fun i => fieldAt reader (i * offsetWidth extended) (offsetWidth extended)) n h3
  unfold Cluster.read_header
  simp only [h1, c1, c2, c3, if_false, if_true]

theorem read_header_some (reader : List Byte) (extended : Bool) (offsets : List Nat)
    (h : Cluster.read_header reader extended = some offsets) :
    offsets = (List.range (fieldAt reader 0 (offsetWidth extended) / offsetWidth extended)).map
        (fun i => fieldAt reader (i * offsetWidth extended) (offsetWidth extended))
    ∧ fieldAt reader 0 (offsetWidth extended) / offsetWidth extended ≠ 0
    ∧ fieldAt reader 0 (offsetWidth extended) / offsetWidth extended * offsetWidth extended
        ≤ reader.length
    ∧ offsets.Chain' (· ≤ ·) := by
  unfold Cluster.read_header at h
  simp only at h
  split at h
  · simp at h
  · split at h
    · simp at h
    · rename_i hc
      split at h
      · rename_i hch
        simp only [Option.some.injEq] at h
        subst h
        exact ⟨rfl, by omega, by omega, hch⟩
      · simp at h

theorem getElem?_map_range (e : Nat → Nat) (n i : Nat) (hi : i < n) :
    ((List.range n).map e).get? i = some (e i) := by
  simp [List.getElem?_range hi]

/-- C14: for an uncompressed region whose offset table holds `n + 1`
non-decreasing entries of 4 or 8 bytes (the first entry, the size of the table,
says so), the reader reports `count() == n` and `getBlobSize(i)` equal to the
difference of the entries `i + 1` and `i`, whatever its magnitude, and
`getBlob(i)` is the bytes of the region between those two offsets whenever the
region reaches that far. -/
theorem reader_blob_bounds (reader : List Byte) (comp : CompressionType)
    (extended : Bool) (n : Nat)
    (h1 : fieldAt reader 0 (offsetWidth extended) / offsetWidth extended = n + 1)
    (h2 : (n + 1) * offsetWidth extended ≤ reader.length)
    (h3 : ∀ i, i < n →
      fieldAt reader (i * offsetWidth extended) (offsetWidth extended)
        ≤ fieldAt reader ((i + 1) * offsetWidth extended) (offsetWidth extended)) :
    ∃ c : Cluster, Cluster.create reader comp extended = some c
      ∧ c.count = n
      ∧ c.getCompression = comp
      ∧ c.is_extended = extended
      ∧ ∀ i, i < n →
          c.getBlobSize i
            = some (fieldAt reader ((i + 1) * offsetWidth extended) (offsetWidth extended)
                - fieldAt reader (i * offsetWidth extended) (offsetWidth extended))
          ∧ (fieldAt reader ((i + 1) * offsetWidth extended) (offsetWidth extended)
                ≤ reader.length →
              c.getBlob i
                = some ((reader.drop
                      (fieldAt reader (i * offsetWidth extended) (offsetWidth extended))).take
                    (fieldAt reader ((i + 1) * offsetWidth extended) (offsetWidth extended)
                      - fieldAt reader (i * offsetWidth extended) (offsetWidth extended)))) := by
  have hrh := read_header_of_table reader extended n h1 h2 h3
  refine ⟨⟨comp, extended,
    (List.range (n + 1)).map fun i =>
      fieldAt reader (i * offsetWidth extended) (offsetWidth extended), reader⟩,
    ?_, ?_, rfl, rfl, ?_⟩
  · unfold Cluster.create
    rw [hrh]
  · simp [Cluster.count]
  · intro i hi
    have g0 := getElem?_map_range
      (fun i => fieldAt reader (i * offsetWidth extended) (offsetWidth extended))
      (n + 1) i (by omega)
    have g1 := getElem?_map_range
      (fun i => fieldAt reader (i * offsetWidth extended) (offsetWidth extended))
      (n + 1) (i + 1) (by omega)
    constructor
    · unfold Cluster.getBlobSize
      simp only [g0, g1]
    · intro hle
      unfold Cluster.getBlob
      simp only [g0, g1, hle, if_true]

/-- The table of the test `read_extended_cluster` gives four blobs, the last of
`2^32 + 1024` bytes; the small region gives its two blobs back. -/
theorem reader_blob_bounds_witness :
    (∃ c : Cluster, Cluster.create extendedTable .zimcompNone true = some c
      ∧ c.count = 4
      ∧ c.getBlobSize 0 = some 30
      ∧ c.getBlobSize 3 = some (2 ^ 32 + 1024))
    ∧ (∃ c : Cluster, Cluster.create smallRegion .zimcompNone false = some c
      ∧ c.count = 2
      ∧ c.getBlob 0 = some [65, 66]
      ∧ c.getBlob 1 = some [97, 98, 99]) := by
  constructor
  · obtain ⟨c, hc, hn, -, -, hb⟩ :=
      reader_blob_bounds extendedTable .zimcompNone true 4 (by decide) (by decide)
        (by decide)
    exact ⟨c, hc, hn, (hb 0 (by decide)).1, (hb 3 (by decide)).1⟩
  · obtain ⟨c, hc, hn, -, -, hb⟩ :=
      reader_blob_bounds smallRegion .zimcompNone false 2 (by decide) (by decide)
        (by decide)
    exact ⟨c, hc, hn, (hb 0 (by decide)).2 (by decide), (hb 1 (by decide)).2 (by decide)⟩

/-- C13 as stated fails: the reader accepts the offset table of the test
`read_extended_cluster`, whose first entry is 40, the size of the table, and not
0; and the table that `dump` writes for the four `sampleBlobs` starts with the
entry 20, the size of its five 4-byte entries. -/
theorem offset_table_first_entry_not_zero :
    Cluster.create extendedTable .zimcompNone true
        = some ⟨.zimcompNone, true, [40, 70, 96, 122, 122 + 2 ^ 32 + 1024], extendedTable⟩
    ∧ fieldAt extendedTable 0 8 = 40
    ∧ (sampleBlobs.foldl writer.Cluster.addData
          (writer.Cluster.new .zimcompNone)).dump markProvider
        = [1, 20, 0, 0, 0, 23, 0, 0, 0, 23, 0, 0, 0, 25, 0, 0, 0, 26, 0, 0, 0,
            49, 50, 51, 65, 66, 97]
    ∧ fieldAt ((sampleBlobs.foldl writer.Cluster.addData
          (writer.Cluster.new .zimcompNone)).offsetTable) 0 4 = 20 := by
  refine ⟨?_, by decide, by decide, by decide⟩
  have hrh := read_header_of_table extendedTable true 4 (by decide) (by decide) (by decide)
  have hl : ((List.range (4 + 1)).map fun i =>
        fieldAt extendedTable (i * offsetWidth true) (offsetWidth true))
      = [40, 70, 96, 122, 122 + 2 ^ 32 + 1024] := by decide
  unfold Cluster.create
  rw [hrh, hl]

/-- C13, amended: in the content that `dump` serializes for a cluster whose
offsets fit their width, the offset table has `count + 1` entries; the first
entry is the size of the table and not 0, entry `i` is the size of the table plus
the sizes of the blobs before blob `i`, so offsets are measured from the start
of the table; the entries do not decrease, the last one is the size of the table
plus the total payload size, and blob `i` lies at entry `i` of the content.  In
every cluster that the reader accepts the table has `count + 1` entries that do
not decrease, `count + 1` being the first entry divided by the width. -/
theorem offset_table_invariant (c : writer.Cluster)
    (h32 : (c.blobs.map List.length).sum < 2 ^ 32 →
      (c.blobs.map List.length).sum + 4 * (c.blobs.length + 1) < 2 ^ 32)
    (h64 : (c.blobs.map List.length).sum + 8 * (c.blobs.length + 1) < 2 ^ 64) :
    c.offsetTable.length = (c.count + 1) * offsetWidth c.is_extended
    ∧ fieldAt (c.offsetTable ++ c.blobs.flatten) 0 (offsetWidth c.is_extended)
        = (c.count + 1) * offsetWidth c.is_extended
    ∧ (∀ i, i ≤ c.count →
        fieldAt (c.offsetTable ++ c.blobs.flatten) (i * offsetWidth c.is_extended)
            (offsetWidth c.is_extended)
          = (c.count + 1) * offsetWidth c.is_extended
            + ((c.blobs.map List.length).take i).sum)
    ∧ (∀ i, i < c.count →
        fieldAt (c.offsetTable ++ c.blobs.flatten) (i * offsetWidth c.is_extended)
            (offsetWidth c.is_extended)
          ≤ fieldAt (c.offsetTable ++ c.blobs.flatten)
              ((i + 1) * offsetWidth c.is_extended) (offsetWidth c.is_extended))
    ∧ fieldAt (c.offsetTable ++ c.blobs.flatten) (c.count * offsetWidth c.is_extended)
          (offsetWidth c.is_extended)
        = (c.count + 1) * offsetWidth c.is_extended + c.size
    ∧ (∀ (i : Nat) (hi : i < c.blobs.length),
        ((c.offsetTable ++ c.blobs.flatten).drop
            (fieldAt (c.offsetTable ++ c.blobs.flatten) (i * offsetWidth c.is_extended)
              (offsetWidth c.is_extended))).take (c.blobs[i]).length
          = c.blobs[i])
    ∧ (∀ (reader : List Byte) (comp : CompressionType) (extended : Bool) (c2 : Cluster),
        Cluster.create reader comp extended = some c2 →
          c2.offsets.length = c2.count + 1
          ∧ c2.offsets.Chain' (· ≤ ·)
          ∧ fieldAt reader 0 (offsetWidth extended) / offsetWidth extended = c2.count + 1
          ∧ ∀ i, i ≤ c2.count →
              c2.offsets.get? i
                = some (fieldAt reader (i * offsetWidth extended) (offsetWidth extended))) := by
  have hfit := fits_of_bounds c h32 h64
  have hlen := length_offsetTable c
  have hf : ∀ i, i ≤ c.count →
      fieldAt (c.offsetTable ++ c.blobs.flatten) (i * offsetWidth c.is_extended)
          (offsetWidth c.is_extended)
        = (c.count + 1) * offsetWidth c.is_extended
          + ((c.blobs.map List.length).take i).sum := by
    intro i hi
    rw [fieldAt_offsetTable c c.blobs.flatten i (by unfold writer.Cluster.count at hi; omega)
      hfit, Nat.add_comm]
    rfl
  refine ⟨hlen, ?_, hf, ?_, ?_, ?_, ?_⟩
  · have := hf 0 (Nat.zero_le _)
    simpa using this
  · intro i hi
    rw [hf i (by omega), hf (i + 1) (by omega)]
    have := sum_take_mono (c.blobs.map List.length) i (i + 1) (by omega)
    omega
  · rw [hf c.count (Nat.le_refl _)]
    unfold writer.Cluster.size writer.Cluster.count
    rw [List.take_of_length_le (by simp)]
  · intro i hi
    rw [hf i (by unfold writer.Cluster.count; omega)]
    have e : (c.count + 1) * offsetWidth c.is_extended
          + ((c.blobs.map List.length).take i).sum
        = c.offsetTable.length + ((c.blobs.map List.length).take i).sum := by
      rw [hlen]; rfl
    rw [e, List.drop_append]
    exact flatten_slice c.blobs i hi
  · intro reader comp extended c2 hc
    unfold Cluster.create at hc
    split at hc
    · simp at hc
    · rename_i offsets hrh
      simp only [Option.some.injEq] at hc
      subst hc
      obtain ⟨ho, hne, -, hch⟩ := read_header_some reader extended offsets hrh
      have hlen2 : offsets.length
          = fieldAt reader 0 (offsetWidth extended) / offsetWidth extended := by
        rw [ho]; simp
      simp only [Cluster.count]
      refine ⟨by omega, hch, by omega, ?_⟩
      intro i hi
      rw [ho]
      exact getElem?_map_range _ _ i (by omega)

/-- The offset table of the four `sampleBlobs`: five entries 20, 23, 23, 25, 26,
the last one the 20 bytes of the table plus the 6 bytes of payload. -/
theorem offset_table_invariant_witness :
    fieldAt (writer.Cluster.offsetTable ⟨.zimcompNone, sampleBlobs⟩
        ++ sampleBlobs.flatten) 0 4 = 20
    ∧ fieldAt (writer.Cluster.offsetTable ⟨.zimcompNone, sampleBlobs⟩
        ++ sampleBlobs.flatten) (4 * 4) 4 = 20 + 6 :=
  ⟨(offset_table_invariant ⟨.zimcompNone, sampleBlobs⟩ (by decide) (by decide)).2.1,
    (offset_table_invariant ⟨.zimcompNone, sampleBlobs⟩ (by decide) (by decide)).2.2.2.2.1⟩

theorem sum_map_length_replicate_nil (n : Nat) :
    ((List.replicate n ([] : List Byte)).map List.length).sum = 0 := by
  induction n with
  | zero => rfl
  | succ n ih => simp [List.replicate_succ, ih]

/-- Where the offset table is shorter than `2^32` bytes (`4 * (n + 1) < 2^32`), a
writer cluster to which `n` zero-length blobs were added dumps and reads back as
a cluster with `count() == n` in which every blob has size 0 and no bytes
(`n = 0` gives a cluster with count 0). -/
theorem degenerate_round_trip (provider : CompressionType → Codec)
    (comp : CompressionType) (n : Nat)
    (hcodec : comp ≠ .zimcompNone → (provider comp).Lossless)
    (hn : 4 * (n + 1) < 2 ^ 32) :
    ∃ (reader : List Byte) (extended : Bool) (cluster2 : Cluster),
      sub_clusterReader provider
          (((List.replicate n ([] : List Byte)).foldl writer.Cluster.addData
            (writer.Cluster.new comp)).dump provider)
        = some (reader, comp, extended)
      ∧ Cluster.create reader comp extended = some cluster2
      ∧ cluster2.count = n
      ∧ ∀ i, i < n → cluster2.getBlobSize i = some 0 ∧ cluster2.getBlob i = some [] := by
  rw [foldl_addData_new]
  have hsum := sum_map_length_replicate_nil n
  have hfit := fits_of_bounds ⟨comp, List.replicate n []⟩
    (by simp only [hsum, List.length_replicate]; omega)
    (by simp only [hsum, List.length_replicate]; omega)
  obtain ⟨reader, cluster2, h1, h2, h3, -, h5⟩ :=
    round_trip_of_fit ⟨comp, List.replicate n []⟩ provider hcodec hfit
  simp only [List.length_replicate] at h3 h5
  refine ⟨reader, _, cluster2, h1, h2, h3, ?_⟩
  intro i hi
  have := h5 i hi
  simpa using this

/-- The test `read_write_empty`: three empty blobs, no compression; and the
cluster without any blob. -/
theorem degenerate_round_trip_witness :
    (∃ (reader : List Byte) (extended : Bool) (cluster2 : Cluster),
      sub_clusterReader markProvider
          (((List.replicate 3 ([] : List Byte)).foldl writer.Cluster.addData
            (writer.Cluster.new .zimcompNone)).dump markProvider)
        = some (reader, .zimcompNone, extended)
      ∧ Cluster.create reader .zimcompNone extended = some cluster2
      ∧ cluster2.count = 3
      ∧ ∀ i, i < 3 → cluster2.getBlobSize i = some 0 ∧ cluster2.getBlob i = some [])
    ∧ (∃ (reader : List Byte) (extended : Bool) (cluster2 : Cluster),
      sub_clusterReader markProvider
          (((List.replicate 0 ([] : List Byte)).foldl writer.Cluster.addData
            (writer.Cluster.new .zimcompZstd)).dump markProvider)
        = some (reader, .zimcompZstd, extended)
      ∧ Cluster.create reader .zimcompZstd extended = some cluster2
      ∧ cluster2.count = 0
      ∧ ∀ i, i < 0 → cluster2.getBlobSize i = some 0 ∧ cluster2.getBlob i = some []) :=
  ⟨degenerate_round_trip markProvider .zimcompNone 3 (fun h => absurd rfl h) (by decide),
    degenerate_round_trip markProvider .zimcompZstd 0
      (fun _ => markProvider_lossless _) (by decide)⟩

/-! ## The chunked decompression stream -/

theorem feedAll_snoc (dec : Decoder) (st st1 : dec.State) (fed : List (List Byte))
    (out : List Byte) (c : List Byte)
    (h : dec.feedAll st fed = some (st1, out, false)) :
    dec.feedAll st (fed ++ [c])
      = match dec.feed st1 c with
        | none => none
        | some (st2, out2, eos) => some (st2, out ++ out2, eos) := by
  induction fed generalizing st out with
  | nil =>
    simp only [Decoder.feedAll, Option.some.injEq, Prod.mk.injEq] at h
    obtain ⟨rfl, rfl, -⟩ := h
    simp only [List.nil_append, Decoder.feedAll]
    cases hf : dec.feed st c with
    | none => rfl
    | some r =>
      obtain ⟨st2, out2, eos⟩ := r
      cases eos <;> simp
  | cons a fed ih =>
    simp only [List.cons_append, Decoder.feedAll] at h ⊢
    cases hf : dec.feed st a with
    | none => rw [hf] at h; simp at h
    | some r =>
      obtain ⟨sa, oa, ea⟩ := r
      rw [hf] at h
      simp only at h ⊢
      cases ea with
      | true => simp at h
      | false =>
        simp only [Bool.false_eq_true, if_false] at h ⊢
        cases hr : dec.feedAll sa fed with
        | none => rw [hr] at h; simp at h
        | some r2 =>
          obtain ⟨s2, o2, e2⟩ := r2
          rw [hr] at h
          simp only [Option.some.injEq, Prod.mk.injEq] at h
          obtain ⟨rfl, rfl, rfl⟩ := h
          rw [show fed.append [c] = fed ++ [c] from rfl, ih sa o2 hr]
          cases hf2 : dec.feed s2 c with
          | none => rfl
          | some r3 =>
            obtain ⟨s3, o3, e3⟩ := r3
            simp [List.append_assoc]

theorem tracks_new (dec : Decoder) (input : List Byte) :
    (DecodedDataStream.new dec input input.length).Tracks input [] :=
  ⟨[], by simp [DecodedDataStream.new], rfl, rfl⟩

theorem decodeMore_tracks (dec : Decoder) (compress : List Byte → List Byte)
    (hdec : dec.Decodes compress) (d g delivered : List Byte) (size rounds : Nat)
    (s : DecodedDataStream dec) (ht : s.Tracks (compress d ++ g) delivered)
    (hr : s.inputBytesLeft ≤ rounds) :
    ∃ s1 : DecodedDataStream dec,
      DecodedDataStream.decodeMore size rounds s = .ok s1
      ∧ s1.Tracks (compress d ++ g) delivered
      ∧ (size ≤ s1.pending.length ∨ s1.endOfStream = true ∨ s1.inputBytesLeft = 0) := by
  induction rounds generalizing s with
  | zero =>
    exact ⟨s, rfl, ht, Or.inr (Or.inr (by omega))⟩
  | succ rounds ih =>
    unfold DecodedDataStream.decodeMore
    by_cases hc : size ≤ s.pending.length ∨ s.endOfStream = true ∨ s.inputBytesLeft = 0
    · rw [if_pos hc]
      exact ⟨s, rfl, ht, hc⟩
    · rw [if_neg hc]
      obtain ⟨fed, hfed, hlen, hfeed⟩ := ht
      have heos : s.endOfStream = false := by
        cases h : s.endOfStream with
        | true => exact absurd (Or.inr (Or.inl h)) hc
        | false => rfl
      have hleft : 0 < s.inputBytesLeft := by
        rcases Nat.eq_zero_or_pos s.inputBytesLeft with h | h
        · exact absurd (Or.inr (Or.inr h)) hc
        · exact h
      have hn : min CHUNK_SIZE s.inputBytesLeft ≤ s.encodedDataStream.length := by
        rw [hlen]; exact Nat.min_le_right _ _
      have hpos : 0 < min CHUNK_SIZE s.inputBytesLeft := by
        simp only [CHUNK_SIZE]; omega
      have hrb : IDataStream.readBlob s.encodedDataStream (min CHUNK_SIZE s.inputBytesLeft)
          = some (s.encodedDataStream.take (min CHUNK_SIZE s.inputBytesLeft),
              s.encodedDataStream.drop (min CHUNK_SIZE s.inputBytesLeft)) := by
        rw [IDataStream.readBlob, if_pos hn]
      rw [hrb]
      simp only
      have hfl : (fed ++ [s.encodedDataStream.take (min CHUNK_SIZE s.inputBytesLeft)]).flatten
            ++ s.encodedDataStream.drop (min CHUNK_SIZE s.inputBytesLeft)
          = compress d ++ g := by
        rw [← hfed]
        simp [List.append_assoc, List.take_append_drop]
      obtain ⟨st2, out2, eos2, hf2, -, -, -⟩ := hdec d g _ ⟨_, hfl⟩
      rw [heos] at hfeed
      rw [feedAll_snoc dec dec.init s.decoderState fed _ _ hfeed] at hf2
      cases hfd : dec.feed s.decoderState
          (s.encodedDataStream.take (min CHUNK_SIZE s.inputBytesLeft)) with
      | none => rw [hfd] at hf2; simp at hf2
      | some r =>
        obtain ⟨st, out, eos⟩ := r
        simp only
        apply ih
        · refine ⟨fed ++ [s.encodedDataStream.take (min CHUNK_SIZE s.inputBytesLeft)],
            hfl, ?_, ?_⟩
          · simp only [List.length_drop, hlen]
          · rw [feedAll_snoc dec dec.init s.decoderState fed _ _ hfeed, hfd]
            simp [List.append_assoc]
        · simp only
          omega
theorem readBlob_tracks (dec : Decoder) (compress : List Byte → List Byte)
    (hdec : dec.Decodes compress) (d g delivered : List Byte) (size : Nat)
    (s : DecodedDataStream dec) (ht : s.Tracks (compress d ++ g) delivered)
    (hsize : delivered.length + size ≤ d.length) :
    ∃ s2 : DecodedDataStream dec,
      s.readBlob size = .ok ((d.drop delivered.length).take size, s2)
      ∧ s2.Tracks (compress d ++ g) (delivered ++ (d.drop delivered.length).take size) := by
  obtain ⟨s1, hdm, ⟨fed, hfed, hlen, hfeed⟩, hstop⟩ :=
    decodeMore_tracks dec compress hdec d g delivered size s.inputBytesLeft s ht
      (Nat.le_refl _)
  obtain ⟨st, out, eos, hf, ⟨t, ht1⟩, heos, hall⟩ := hdec d g fed ⟨_, hfed⟩
  rw [hfeed] at hf
  simp only [Option.some.injEq, Prod.mk.injEq] at hf
  obtain ⟨-, rfl, rfl⟩ := hf
  have hdl : d.length = delivered.length + s1.pending.length + t.length := by
    rw [← ht1]; simp only [List.length_append]
  have henough : size ≤ s1.pending.length := by
    rcases hstop with h | h | h
    · exact h
    · have := heos h
      have hl := congrArg List.length this
      simp only [List.length_append] at hl
      omega
    · have hnil : s1.encodedDataStream = [] := by
        apply List.eq_nil_of_length_eq_zero
        rw [hlen, h]
      have := hall ⟨g, by rw [← hfed, hnil, List.append_nil]⟩
      have hl := congrArg List.length this
      simp only [List.length_append] at hl
      omega
  have hdrop : d.drop delivered.length = s1.pending ++ t := by
    rw [← ht1, List.append_assoc, List.drop_left]
  have htake : (d.drop delivered.length).take size = s1.pending.take size := by
    rw [hdrop, List.take_append_of_le_length henough]
  refine ⟨{ s1 with pending := s1.pending.drop size }, ?_, ?_⟩
  · unfold DecodedDataStream.readBlob
    rw [hdm]
    simp only [henough, if_true, htake]
  · refine ⟨fed, hfed, hlen, ?_⟩
    rw [hfeed, htake]
    simp only [List.append_assoc, List.take_append_drop]

theorem readBlobs_tracks (dec : Decoder) (compress : List Byte → List Byte)
    (hdec : dec.Decodes compress) (d g : List Byte) (sizes : List Nat)
    (delivered : List Byte) (s : DecodedDataStream dec)
    (ht : s.Tracks (compress d ++ g) delivered)
    (hsize : delivered.length + sizes.sum ≤ d.length) :
    ∃ s2 : DecodedDataStream dec,
      s.readBlobs sizes = .ok (segments (d.drop delivered.length) sizes, s2) := by
  induction sizes generalizing s delivered with
  | nil => exact ⟨s, rfl⟩
  | cons size sizes ih =>
    simp only [List.sum_cons] at hsize
    obtain ⟨s1, hrb, ht1⟩ :=
      readBlob_tracks dec compress hdec d g delivered size s ht (by omega)
    have hl : (delivered ++ (d.drop delivered.length).take size).length
        = delivered.length + size := by
      simp only [List.length_append, List.length_take, List.length_drop]
      omega
    obtain ⟨s2, hrs⟩ := ih _ s1 ht1 (by rw [hl]; omega)
    refine ⟨s2, ?_⟩
    unfold DecodedDataStream.readBlobs
    rw [hrb]
    simp only
    rw [hrs, hl]
    simp only [segments, List.drop_drop]

theorem readBlobs_new (dec : Decoder) (compress : List Byte → List Byte)
    (hdec : dec.Decodes compress) (d g : List Byte) (sizes : List Nat)
    (hsize : sizes.sum ≤ d.length) :
    ∃ s2 : DecodedDataStream dec,
      (DecodedDataStream.new dec (compress d ++ g)
          ((compress d).length + g.length)).readBlobs sizes
        = .ok (segments d sizes, s2) := by
  have ht := tracks_new dec (compress d ++ g)
  rw [List.length_append] at ht
  have := readBlobs_tracks dec compress hdec d g sizes [] _ ht (by simpa using hsize)
  simpa using this
theorem tagRun_finished (l : List Byte) : tagRun .finished l = some (.finished, []) := by
  cases l <;> rfl

theorem tagRun_append (st : TagState) (a b : List Byte) :
    tagRun st (a ++ b)
      = match tagRun st a with
        | none => none
        | some (s1, o1) =>
          match tagRun s1 b with
          | none => none
          | some (s2, o2) => some (s2, o1 ++ o2) := by
  induction a generalizing st with
  | nil =>
    simp only [List.nil_append]
    have h : tagRun st [] = some (st, []) := by cases st <;> rfl
    rw [h]
    cases hb : tagRun st b with
    | none => simp only [hb]
    | some r => obtain ⟨s2, o2⟩ := r; simp only [hb, List.nil_append]
  | cons x a ih =>
    cases st with
    | finished =>
      simp only [List.cons_append, tagRun, tagRun_finished, List.append_nil]
    | tag =>
      simp only [List.cons_append, tagRun]
      by_cases h1 : x = 1
      · simp only [h1, if_true]
        exact ih .literal
      · simp only [h1, if_false]
        by_cases h0 : x = 0
        · simp only [h0, if_true, tagRun_finished, List.append_nil]
        · simp only [h0, if_false]
    | literal =>
      simp only [List.cons_append, tagRun]
      rw [show a.append b = a ++ b from rfl, ih .tag]
      cases ha : tagRun .tag a with
      | none => rfl
      | some r =>
        obtain ⟨s1, o1⟩ := r
        simp only
        cases hb : tagRun s1 b with
        | none => rfl
        | some r2 => obtain ⟨s2, o2⟩ := r2; rfl

theorem feedAll_tagDecoder (chunks : List (List Byte)) (st : TagState)
    (hst : st ≠ .finished) :
    tagDecoder.feedAll st chunks
      = match tagRun st chunks.flatten with
        | none => none
        | some (s, o) => some (s, o, decide (s = .finished)) := by
  induction chunks generalizing st with
  | nil =>
    have h : tagRun st [] = some (st, []) := by cases st <;> rfl
    simp only [Decoder.feedAll, List.flatten_nil, h, hst, decide_False]
  | cons c cs ih =>
    simp only [Decoder.feedAll, List.flatten_cons, tagRun_append]
    have hfeed : tagDecoder.feed st c
        = match tagRun st c with
          | none => none
          | some (st1, out) => some (st1, out, decide (st1 = .finished)) := rfl
    rw [hfeed]
    cases hc : tagRun st c with
    | none => rfl
    | some r =>
      obtain ⟨s1, o1⟩ := r
      simp only
      by_cases hf : s1 = .finished
      · subst hf
        simp only [decide_True, if_true, tagRun_finished, List.append_nil]
      · simp only [hf, decide_False, Bool.false_eq_true, if_false]
        rw [ih s1 hf]
        cases hr : tagRun s1 cs.flatten with
        | none => rfl
        | some r2 => obtain ⟨s2, o2⟩ := r2; rfl

theorem tagCompress_cons (b : Byte) (d : List Byte) :
    tagCompress (b :: d) = 1 :: b :: tagCompress d := by
  simp [tagCompress, List.flatMap_cons]

theorem tagRun_tagCompress (d g p t : List Byte) (h : p ++ t = tagCompress d ++ g) :
    ∃ (s : TagState) (o : List Byte),
      tagRun .tag p = some (s, o)
      ∧ (∃ t2, o ++ t2 = d)
      ∧ (s = .finished → o = d)
      ∧ ((∃ t3, tagCompress d ++ t3 = p) → o = d) := by
  induction d generalizing p with
  | nil =>
    have hc : tagCompress [] = [0] := rfl
    rw [hc] at h ⊢
    cases p with
    | nil =>
      refine ⟨.tag, [], rfl, ⟨[], rfl⟩, fun _ => rfl, fun _ => rfl⟩
    | cons x p =>
      simp only [List.cons_append, List.singleton_append, List.cons.injEq] at h
      obtain ⟨rfl, -⟩ := h
      refine ⟨.finished, [], ?_, ⟨[], rfl⟩, fun _ => rfl, fun _ => rfl⟩
      simp [tagRun]
  | cons b d ih =>
    rw [tagCompress_cons] at h ⊢
    cases p with
    | nil =>
      refine ⟨.tag, [], rfl, ⟨_, rfl⟩, fun h => by simp at h, ?_⟩
      rintro ⟨t3, h3⟩
      simp at h3
    | cons x p =>
      simp only [List.cons_append, List.cons.injEq] at h
      obtain ⟨rfl, h⟩ := h
      cases p with
      | nil =>
        refine ⟨.literal, [], ?_, ⟨_, rfl⟩, fun h => by simp at h, ?_⟩
        · simp [tagRun]
        · rintro ⟨t3, h3⟩
          simp at h3
      | cons y p =>
        simp only [List.cons_append, List.cons.injEq] at h
        obtain ⟨rfl, h⟩ := h
        obtain ⟨s, o, hrun, ⟨t2, ht2⟩, hfin, hall⟩ := ih p h
        refine ⟨s, y :: o, ?_, ⟨t2, by simp [ht2]⟩, ?_, ?_⟩
        · simp [tagRun, hrun]
        · intro hs
          rw [hfin hs]
        · rintro ⟨t3, h3⟩
          simp only [List.cons_append, List.cons.injEq, true_and] at h3
          rw [hall ⟨t3, h3⟩]

theorem tagDecoder_decodes : tagDecoder.Decodes tagCompress := by
  intro d g chunks ⟨t, ht⟩
  obtain ⟨s, o, hrun, hpre, hfin, hall⟩ := tagRun_tagCompress d g chunks.flatten t ht
  have hinit : tagDecoder.init = TagState.tag := rfl
  refine ⟨s, o, decide (s = .finished), ?_, hpre, ?_, hall⟩
  · rw [hinit, feedAll_tagDecoder chunks .tag (by simp), hrun]
  · intro h
    exact hfin (of_decide_eq_true h)
/-- C17: for every `d` and every list of sizes whose sum is at most `|d|`, the
stream constructed over `compress(d)` with its length returns from the
successive `readBlob` calls the consecutive segments of `d` of those lengths,
without exception; the decoder is any decoder that decodes `compress` whatever
the cut of the input into chunks, so the result does not depend on how the data
falls across the 1024-byte chunks. -/
theorem readBlob_sequence (dec : Decoder) (compress : List Byte → List Byte)
    (hdec : dec.Decodes compress) (d : List Byte) (sizes : List Nat)
    (hsize : sizes.sum ≤ d.length) :
    ∃ s2 : DecodedDataStream dec,
      (DecodedDataStream.new dec (compress d) (compress d).length).readBlobs sizes
        = .ok (segments d sizes, s2) := by
  have := readBlobs_new dec compress hdec d [] sizes hsize
  simpa using this

/-- A stream over the tagged image of 1500 bytes, which spans three chunks of
input, read as blobs of 700, 0 and 800 bytes. -/
theorem readBlob_sequence_witness :
    tagDecoder.Decodes tagCompress
    ∧ ∃ s2 : DecodedDataStream tagDecoder,
      (DecodedDataStream.new tagDecoder (tagCompress (List.replicate 1500 7))
          (tagCompress (List.replicate 1500 7)).length).readBlobs [700, 0, 800]
        = .ok (segments (List.replicate 1500 7) [700, 0, 800], s2) :=
  ⟨tagDecoder_decodes,
    readBlob_sequence tagDecoder tagCompress tagDecoder_decodes (List.replicate 1500 7)
      [700, 0, 800] (by rw [List.length_replicate]; decide)⟩

/-- C18: for every `d`, every `g` and sizes whose sum is at most `|d|`, the
stream constructed over `compress(d) ++ g` with the length of both returns from
its `readBlob` calls the same blobs as the stream over `compress(d)` alone,
namely the consecutive segments of `d`. -/
theorem readBlob_trailing_garbage (dec : Decoder) (compress : List Byte → List Byte)
    (hdec : dec.Decodes compress) (d g : List Byte) (sizes : List Nat)
    (hsize : sizes.sum ≤ d.length) :
    ∃ (blobs : List (List Byte)) (s2 s3 : DecodedDataStream dec),
      (DecodedDataStream.new dec (compress d ++ g)
          ((compress d).length + g.length)).readBlobs sizes = .ok (blobs, s2)
      ∧ (DecodedDataStream.new dec (compress d) (compress d).length).readBlobs sizes
          = .ok (blobs, s3)
      ∧ blobs = segments d sizes := by
  obtain ⟨s2, h2⟩ := readBlobs_new dec compress hdec d g sizes hsize
  obtain ⟨s3, h3⟩ := readBlobs_new dec compress hdec d [] sizes hsize
  refine ⟨segments d sizes, s2, s3, h2, ?_, rfl⟩
  simpa using h3

/-- The test `compressedDataFollowedByGarbage` in small: ten zero bytes behind
the tagged image of five bytes. -/
theorem readBlob_trailing_garbage_witness :
    ([2, 0, 3] : List Nat).sum ≤ ([1, 2, 3, 4, 5] : List Byte).length
    ∧ ∃ (blobs : List (List Byte)) (s2 s3 : DecodedDataStream tagDecoder),
      (DecodedDataStream.new tagDecoder
          (tagCompress [1, 2, 3, 4, 5] ++ List.replicate 10 0)
          ((tagCompress [1, 2, 3, 4, 5]).length + (List.replicate 10 (0 : Byte)).length)).readBlobs
            [2, 0, 3] = .ok (blobs, s2)
      ∧ (DecodedDataStream.new tagDecoder (tagCompress [1, 2, 3, 4, 5])
          (tagCompress [1, 2, 3, 4, 5]).length).readBlobs [2, 0, 3] = .ok (blobs, s3)
      ∧ blobs = segments [1, 2, 3, 4, 5] [2, 0, 3] :=
  ⟨by decide,
    readBlob_trailing_garbage tagDecoder tagCompress tagDecoder_decodes [1, 2, 3, 4, 5]
      (List.replicate 10 0) [2, 0, 3] (by decide)⟩

/-! ## The header codec: from bytes to header and back -/

theorem slice_append_drop (b : List Byte) (o w o1 : Nat) (h : o + w = o1) :
    (b.drop o).take w ++ b.drop o1 = b.drop o := by
  subst h
  rw [← List.drop_drop, List.take_append_drop]

theorem toLittleEndian_fieldAt (b : List Byte) (o w : Nat) (h : o + w ≤ b.length) :
    toLittleEndian (fieldAt b o w) w = (b.drop o).take w := by
  have hl : ((b.drop o).take w).length = w := by
    simp only [List.length_take, List.length_drop]; omega
  unfold fieldAt
  have := toLittleEndian_fromLittleEndian ((b.drop o).take w)
  rw [hl] at this
  exact this

theorem write_ofBytes (b header : List Byte) (hb : b.length = 80)
    (hh : header.length = 80) (hmagic : fieldAt b 0 4 = Fileheader.zimMagic) :
    (Fileheader.ofBytes b).write header = b := by
  have hu : (Uuid.copyFrom Uuid.zero ((b.drop 8).take 16)).data = (b.drop 8).take 16 := by
    have h16 : ((b.drop 8).take 16).length = 16 := by
      simp only [List.length_take, List.length_drop]; omega
    exact congrArg Uuid.data (Uuid.copyFrom_data Uuid.zero ⟨_, h16⟩)
  rw [Fileheader.write_eq _ header hh]
  simp only [Fileheader.ofBytes, hu]
  rw [← hmagic]
  rw [toLittleEndian_fieldAt b 0 4 (by omega), toLittleEndian_fieldAt b 4 2 (by omega),
    toLittleEndian_fieldAt b 6 2 (by omega), toLittleEndian_fieldAt b 24 4 (by omega),
    toLittleEndian_fieldAt b 28 4 (by omega), toLittleEndian_fieldAt b 32 8 (by omega),
    toLittleEndian_fieldAt b 40 8 (by omega), toLittleEndian_fieldAt b 48 8 (by omega),
    toLittleEndian_fieldAt b 56 8 (by omega), toLittleEndian_fieldAt b 64 4 (by omega),
    toLittleEndian_fieldAt b 68 4 (by omega), toLittleEndian_fieldAt b 72 8 (by omega)]
  have e80 : b.drop 80 = [] := List.drop_eq_nil_of_le (by omega)
  have e72 := slice_append_drop b 72 8 80 rfl
  rw [e80, List.append_nil] at e72
  conv_rhs =>
    rw [← List.drop_zero (l := b), ← slice_append_drop b 0 4 4 rfl,
      ← slice_append_drop b 4 2 6 rfl, ← slice_append_drop b 6 2 8 rfl,
      ← slice_append_drop b 8 16 24 rfl, ← slice_append_drop b 24 4 28 rfl,
      ← slice_append_drop b 28 4 32 rfl, ← slice_append_drop b 32 8 40 rfl,
      ← slice_append_drop b 40 8 48 rfl, ← slice_append_drop b 48 8 56 rfl,
      ← slice_append_drop b 56 8 64 rfl, ← slice_append_drop b 64 4 68 rfl,
      ← slice_append_drop b 68 4 72 rfl, ← e72]
  simp only [List.append_assoc, List.drop_zero]

theorem read_ok_parsed (self : Fileheader) (b : List Byte) (hb : 80 ≤ b.length)
    (hok : (self.read b).thrown = none) :
    fieldAt b 0 4 = Fileheader.zimMagic ∧ (self.read b).self = Fileheader.ofBytes b := by
  by_cases hmagic : fieldAt b 0 4 = Fileheader.zimMagic
  · by_cases hmajor : fieldAt b 4 2 = 5 ∨ fieldAt b 4 2 = 6
    · rw [Fileheader.read_parsed self b hb hmagic hmajor]
      exact ⟨hmagic, rfl⟩
    · rw [Fileheader.read_bad_version self b (by omega) hmagic (by omega)] at hok
      simp at hok
  · rw [Fileheader.read_bad_magic self b (by omega) hmagic] at hok
    simp at hok

/-- C20: for every 80-byte sequence `b` on which `read` succeeds, `write` of the
resulting header emits exactly `b`; so two accepted 80-byte inputs that give the
same header are the same bytes. -/
theorem Fileheader.write_read (self : Fileheader) (b header : List Byte)
    (hb : b.length = 80) (hh : header.length = 80)
    (hok : (self.read b).thrown = none) :
    (self.read b).self.write header = b
    ∧ ∀ (self2 : Fileheader) (b2 : List Byte), b2.length = 80 →
        (self2.read b2).thrown = none → (self2.read b2).self = (self.read b).self →
        b2 = b := by
  obtain ⟨hmagic, hself⟩ := read_ok_parsed self b (by omega) hok
  refine ⟨by rw [hself]; exact write_ofBytes b header hb hh hmagic, ?_⟩
  intro self2 b2 hb2 hok2 heq
  obtain ⟨hmagic2, hself2⟩ := read_ok_parsed self2 b2 (by omega) hok2
  have h1 := write_ofBytes b header hb hh hmagic
  have h2 := write_ofBytes b2 header hb2 hh hmagic2
  rw [← h1, ← h2, ← hself, ← hself2, heq]

/-- `sampleBytes` are accepted, and written again from the header read. -/
theorem Fileheader.write_read_witness :
    (Fileheader.read unbalancedHeader sampleBytes).thrown = none
    ∧ (Fileheader.read unbalancedHeader sampleBytes).self.write zeroBuffer = sampleBytes :=
  ⟨by decide,
    (Fileheader.write_read unbalancedHeader sampleBytes zeroBuffer rfl rfl (by decide)).1⟩
/-! ## The header codec: what validation looks at -/

theorem sanity_check_congr (h1 h2 : Fileheader)
    (ha : h1.articleCount = h2.articleCount) (hc : h1.clusterCount = h2.clusterCount)
    (hu : h1.urlPtrPos = h2.urlPtrPos) (ht : h1.titleIdxPos = h2.titleIdxPos)
    (hp : h1.clusterPtrPos = h2.clusterPtrPos) (hm : h1.mimeListPos = h2.mimeListPos)
    (hk : h1.checksumPos = h2.checksumPos) :
    h1.sanity_check = h2.sanity_check := by
  unfold Fileheader.sanity_check
  rw [ha, hc, hu, ht, hp, hm, hk]

/-- C21: two inputs of at least 80 bytes that agree on magic, major version,
`articleCount`, `clusterCount`, `urlPtrPos`, `titleIdxPos`, `clusterPtrPos`,
`mimeListPos` and `checksumPos` make `read` end the same way, without exception
for both or with the same exception for both, whatever their minor version,
uuid, `mainPage` and `layoutPage` are and whatever the objects held before. -/
theorem Fileheader.read_validation_fields (self1 self2 : Fileheader) (b1 b2 : List Byte)
    (hl1 : 80 ≤ b1.length) (hl2 : 80 ≤ b2.length)
    (hmagic : fieldAt b1 0 4 = fieldAt b2 0 4)
    (hmajor : fieldAt b1 4 2 = fieldAt b2 4 2)
    (harticle : fieldAt b1 24 4 = fieldAt b2 24 4)
    (hcluster : fieldAt b1 28 4 = fieldAt b2 28 4)
    (hurl : fieldAt b1 32 8 = fieldAt b2 32 8)
    (htitle : fieldAt b1 40 8 = fieldAt b2 40 8)
    (hptr : fieldAt b1 48 8 = fieldAt b2 48 8)
    (hmime : fieldAt b1 56 8 = fieldAt b2 56 8)
    (hchecksum : fieldAt b1 72 8 = fieldAt b2 72 8) :
    (self1.read b1).thrown = (self2.read b2).thrown := by
  by_cases hm : fieldAt b1 0 4 = Fileheader.zimMagic
  · have hm2 : fieldAt b2 0 4 = Fileheader.zimMagic := by rw [← hmagic]; exact hm
    by_cases hv : fieldAt b1 4 2 = 5 ∨ fieldAt b1 4 2 = 6
    · have hv2 : fieldAt b2 4 2 = 5 ∨ fieldAt b2 4 2 = 6 := by rw [← hmajor]; exact hv
      rw [Fileheader.read_parsed self1 b1 hl1 hm hv,
        Fileheader.read_parsed self2 b2 hl2 hm2 hv2]
      have hs : (Fileheader.ofBytes b1).sanity_check = (Fileheader.ofBytes b2).sanity_check :=
        sanity_check_congr _ _ harticle hcluster hurl htitle hptr hmime hchecksum
      simp only [hs]
    · have hv2 : ¬ (fieldAt b2 4 2 = 5 ∨ fieldAt b2 4 2 = 6) := by rw [← hmajor]; exact hv
      rw [Fileheader.read_bad_version self1 b1 (by omega) hm (by omega),
        Fileheader.read_bad_version self2 b2 (by omega) hm2 (by omega)]
  · have hm2 : fieldAt b2 0 4 ≠ Fileheader.zimMagic := by rw [← hmagic]; exact hm
    rw [Fileheader.read_bad_magic self1 b1 (by omega) hm,
      Fileheader.read_bad_magic self2 b2 (by omega) hm2]

/-- `otherIdentityBytes` differ from `sampleBytes` in minor version, uuid,
`mainPage` and `layoutPage` only, and both are accepted, though the main page
`0xffffffff` is no index of the one article. -/
theorem Fileheader.read_validation_fields_witness :
    fieldAt otherIdentityBytes 64 4 = 0xffffffff
    ∧ (Fileheader.read sampleHeader sampleBytes).thrown = none
    ∧ (Fileheader.read sampleHeader sampleBytes).thrown
        = (Fileheader.read unbalancedHeader otherIdentityBytes).thrown :=
  ⟨by decide, by decide,
    Fileheader.read_validation_fields sampleHeader unbalancedHeader sampleBytes
      otherIdentityBytes (by decide) (by decide) (by decide) (by decide) (by decide)
      (by decide) (by decide) (by decide) (by decide) (by decide) (by decide)⟩

/-- C22: `write` emits 80 bytes for every header, checking nothing: the bytes it
emits for a header with major version 7, for a header with one article and no
cluster, and for a header with `mimeListPos` 0 are each rejected by `read` with
a format error. -/
theorem Fileheader.write_no_validation :
    (∀ (h : Fileheader) (header : List Byte), header.length = 80 →
      (h.write header).length = 80)
    ∧ (Fileheader.read sampleHeader (futureHeader.write zeroBuffer)).thrown
        = some (.format .invalidVersion)
    ∧ (Fileheader.read sampleHeader (unbalancedHeader.write zeroBuffer)).thrown
        = some (.format .noArticleNoCluster)
    ∧ (Fileheader.read sampleHeader (noMimeHeader.write zeroBuffer)).thrown
        = some (.format .mimelistPosMustBe80) := by
  refine ⟨fun h header hlen => (Fileheader.write_slices h header hlen).1, ?_, ?_, ?_⟩
  · decide
  · decide
  · decide

/-- The header with major version 7 is written as 80 bytes over a zeroed buffer. -/
theorem Fileheader.write_no_validation_witness :
    zeroBuffer.length = 80 ∧ (futureHeader.write zeroBuffer).length = 80 :=
  ⟨rfl, Fileheader.write_no_validation.1 futureHeader zeroBuffer rfl⟩

/-! ## The title listing -/

theorem feed_blob (self : ListingProvider) (dirent : writer.Dirent)
    (hit : self.mp_dirents.get? self.m_it = some dirent)
    (hbuf : self.buffer.length = sizeof_offset_type) :
    self.feed.1
      = toLittleEndian dirent.idx sizeof_entry_index_type
        ++ self.buffer.drop sizeof_entry_index_type
    ∧ self.feed.2.buffer
      = toLittleEndian dirent.idx sizeof_entry_index_type
        ++ self.buffer.drop sizeof_entry_index_type
    ∧ self.feed.2.m_it = self.m_it + 1
    ∧ self.feed.2.mp_dirents = self.mp_dirents := by
  have hc : copyTo self.buffer 0 (toLittleEndian dirent.idx sizeof_entry_index_type)
      = toLittleEndian dirent.idx sizeof_entry_index_type
        ++ self.buffer.drop sizeof_entry_index_type := by
    simp [copyTo]
  unfold ListingProvider.feed
  rw [hit]
  simp only [hc, and_self, and_true]
  apply List.take_of_length_le
  simp only [List.length_append, toLittleEndian_length, List.length_drop, hbuf,
    sizeof_offset_type, sizeof_entry_index_type]
  omega

/-- C19 fails on the code: for the one dirent with index 1, `feed` returns the
4 bytes of the index followed by the bytes 4 to 7 that `buffer` held when the
provider was constructed: `0xaa` in one memory, 0 in another; the same dirent
gives different blobs. -/
theorem ListingProvider.feed_uninitialised_bytes :
    (ListingProvider.new [⟨[65], 1⟩]
        [0xaa, 0xaa, 0xaa, 0xaa, 0xaa, 0xaa, 0xaa, 0xaa]).feed.1
      = [1, 0, 0, 0, 0xaa, 0xaa, 0xaa, 0xaa]
    ∧ (ListingProvider.new [⟨[65], 1⟩] [0, 0, 0, 0, 0, 0, 0, 0]).feed.1
      = [1, 0, 0, 0, 0, 0, 0, 0]
    ∧ (ListingProvider.new [⟨[65], 1⟩]
        [0xaa, 0xaa, 0xaa, 0xaa, 0xaa, 0xaa, 0xaa, 0xaa]).feed.1
      ≠ toLittleEndian 1 sizeof_offset_type := by
  decide

theorem length_insert (compareTitle : writer.Dirent → writer.Dirent → Bool)
    (dirent : writer.Dirent) (l : List writer.Dirent) :
    (DirentSet.insert compareTitle dirent l).length = l.length + 1 := by
  induction l with
  | nil => rfl
  | cons e es ih =>
    unfold DirentSet.insert
    split
    · rfl
    · simp only [List.length_cons, ih]

theorem length_handle_foldl (compareTitle : writer.Dirent → writer.Dirent → Bool)
    (calls : List writer.Dirent) (self : TitleListingHandler) :
    (calls.foldl (TitleListingHandler.handle compareTitle) self).m_dirents.length
      = self.m_dirents.length + calls.length := by
  induction calls generalizing self with
  | nil => rfl
  | cons d ds ih =>
    simp only [List.foldl_cons, List.length_cons]
    rw [ih]
    simp only [TitleListingHandler.handle, length_insert]
    omega

theorem feed_done (self : ListingProvider) (h : self.mp_dirents.length ≤ self.m_it) :
    self.feed = ([], self) := by
  have hn : self.mp_dirents.get? self.m_it = none := by
    rw [List.get?_eq_getElem?]
    exact List.getElem?_eq_none h
  unfold ListingProvider.feed
  rw [hn]

theorem feedN_done (k : Nat) (self : ListingProvider)
    (h : self.mp_dirents.length ≤ self.m_it) :
    ListingProvider.feedN k self = (List.replicate k [], self) := by
  induction k with
  | zero => rfl
  | succ k ih =>
    unfold ListingProvider.feedN
    simp only [feed_done self h, ih, List.replicate_succ]

theorem feedN_run (k : Nat) (self : ListingProvider)
    (hbuf : self.buffer.length = sizeof_offset_type)
    (hk : self.m_it + k = self.mp_dirents.length) :
    (ListingProvider.feedN k self).1.length = k
    ∧ (∀ blob ∈ (ListingProvider.feedN k self).1, blob.length = sizeof_offset_type)
    ∧ ((ListingProvider.feedN k self).1.map List.length).sum = sizeof_offset_type * k
    ∧ (ListingProvider.feedN k self).2.m_it = self.mp_dirents.length
    ∧ (ListingProvider.feedN k self).2.mp_dirents = self.mp_dirents := by
  induction k generalizing self with
  | zero =>
    refine ⟨rfl, ?_, rfl, ?_, rfl⟩
    · intro blob hb
      simp [ListingProvider.feedN] at hb
    · simp only [ListingProvider.feedN]
      omega
  | succ k ih =>
    have hlt : self.m_it < self.mp_dirents.length := by omega
    have hit : self.mp_dirents.get? self.m_it = some (self.mp_dirents[self.m_it]) := by
      rw [List.get?_eq_getElem?]
      exact List.getElem?_eq_getElem hlt
    obtain ⟨h1, h2, h3, h4⟩ := feed_blob self _ hit hbuf
    have hl : self.feed.1.length = sizeof_offset_type := by
      rw [h1]
      simp only [List.length_append, toLittleEndian_length, List.length_drop, hbuf,
        sizeof_offset_type, sizeof_entry_index_type]
    have hbuf2 : self.feed.2.buffer.length = sizeof_offset_type := by
      rw [h2, ← h1]; exact hl
    obtain ⟨i1, i2, i3, i4, i5⟩ := ih self.feed.2 hbuf2 (by rw [h3, h4]; omega)
    unfold ListingProvider.feedN
    simp only [List.length_cons, i1, List.map_cons, List.sum_cons, i3, hl, i4, i5, h4,
      true_and, and_true]
    refine ⟨?_, ?_⟩
    · intro blob hb
      simp only [List.mem_cons] at hb
      rcases hb with rfl | hb
      · exact hl
      · exact i2 blob hb
    · rw [Nat.mul_succ, Nat.add_comm]

/-- C23: for a `ListingProvider` over `n` dirents (its buffer being 8 bytes), the
first `n` calls of `feed` return `n` blobs of `sizeof(offset_type) = 8` bytes
each, the next call and every later call return the empty blob, and the bytes
fed add up to `getSize() = 8 * n`; `handle` adds one dirent to the set at every
call, whatever the order of the titles and also for a dirent that is in the set
already, so the provider of a handler is over as many dirents as `handle` was
called. -/
theorem ListingProvider.feed_exhaustion
    (compareTitle : writer.Dirent → writer.Dirent → Bool)
    (calls dirents : List writer.Dirent) (buffer : List Byte)
    (hbuf : buffer.length = sizeof_offset_type) :
    sizeof_offset_type = 8
    ∧ (ListingProvider.feedN dirents.length (ListingProvider.new dirents buffer)).1.length
        = dirents.length
    ∧ (∀ blob ∈ (ListingProvider.feedN dirents.length
          (ListingProvider.new dirents buffer)).1, blob.length = 8)
    ∧ (∀ k, (ListingProvider.feedN k
          (ListingProvider.feedN dirents.length (ListingProvider.new dirents buffer)).2).1
        = List.replicate k [])
    ∧ ((ListingProvider.feedN dirents.length
          (ListingProvider.new dirents buffer)).1.map List.length).sum
        = (ListingProvider.new dirents buffer).getSize
    ∧ (ListingProvider.new dirents buffer).getSize = 8 * dirents.length
    ∧ (∀ (self : TitleListingHandler) (dirent : writer.Dirent),
        (self.handle compareTitle dirent).m_dirents.length = self.m_dirents.length + 1)
    ∧ (calls.foldl (TitleListingHandler.handle compareTitle)
          TitleListingHandler.new).m_dirents.length = calls.length
    ∧ ((calls.foldl (TitleListingHandler.handle compareTitle)
          TitleListingHandler.new).getContentProvider buffer).getSize
        = 8 * calls.length := by
  obtain ⟨h1, h2, h3, h4, h5⟩ :=
    feedN_run dirents.length (ListingProvider.new dirents buffer) hbuf
      (by simp [ListingProvider.new])
  have hcalls := length_handle_foldl compareTitle calls TitleListingHandler.new
  simp only [TitleListingHandler.new, List.length_nil, Nat.zero_add] at hcalls
  refine ⟨rfl, h1, h2, ?_, ?_, ?_, ?_, hcalls, ?_⟩
  · intro k
    rw [feedN_done k _ (by rw [h4, h5])]
  · rw [h3]
    simp only [ListingProvider.getSize, ListingProvider.new]
    exact Nat.mul_comm _ _
  · simp only [ListingProvider.getSize, ListingProvider.new, sizeof_offset_type]
    exact Nat.mul_comm _ _
  · intro self dirent
    simp only [TitleListingHandler.handle, length_insert]
  · simp only [TitleListingHandler.getContentProvider, ListingProvider.getSize,
      ListingProvider.new, sizeof_offset_type]
    rw [show TitleListingHandler.new = ⟨[]⟩ from rfl, hcalls]
    exact Nat.mul_comm _ _

/-- Four `handle` calls, one dirent given twice: the provider feeds four blobs of
8 bytes and then empty blobs. -/
theorem ListingProvider.feed_exhaustion_witness :
    ([9, 9, 9, 9, 9, 9, 9, 9] : List Byte).length = sizeof_offset_type
    ∧ (sampleDirents.foldl (TitleListingHandler.handle compareTitleSample)
          TitleListingHandler.new).m_dirents.length = 4
    ∧ (ListingProvider.feedN 6
          ((sampleDirents.foldl (TitleListingHandler.handle compareTitleSample)
            TitleListingHandler.new).getContentProvider [9, 9, 9, 9, 9, 9, 9, 9])).1
        = [[44, 1, 0, 0, 9, 9, 9, 9], [2, 0, 0, 0, 9, 9, 9, 9], [7, 0, 0, 0, 9, 9, 9, 9],
            [7, 0, 0, 0, 9, 9, 9, 9], [], []] :=
  ⟨rfl,
    (ListingProvider.feed_exhaustion compareTitleSample sampleDirents sampleDirents
      [9, 9, 9, 9, 9, 9, 9, 9] rfl).2.2.2.2.2.2.2.1,
    by decide⟩

end zim
